import Mathlib

/-!
# SanitizeName (pkg/util/kubernetes/sanitize.go)

A shallow embedding of `SanitizeName` and of the library functions it calls,
followed by theorems about the embedded function.

The program is a pipeline of six calls:

    name = strings.Split(name, ".")[0]
    name = path.Base(name)
    name = strings.ToLower(name)
    name = strcase.KebabCase(name)
    name = disallowedChars.ReplaceAllString(name, "")
    name = strings.TrimFunc(name, isDisallowedStartEndChar)

Only `SanitizeName`, `isDisallowedStartEndChar` and the pattern
`disallowedChars` are code of the package.  The functions of the Go standard
library (`strings`, `path`, `unicode`, `regexp`) and of
`github.com/stoewer/go-strcase` are embedded after their library sources, each
in a namespace named after its Go package.

A Go string is embedded as the list of its runes: the strings of the embedding
are the valid UTF-8 strings.  The parts of the Unicode tables above ASCII (case
mapping, letters, white space) change from one Go release to the next; they
are a parameter `U : UnicodeTables` of the embedding.  The theorems hold for
every value of it; a property of the tables that a theorem relies on is stated
as its hypothesis (`LowerKeepsNonLetters`, `LowerNeverUpper`).

The file has three parts: the embedding of the program, the auxiliary
definitions of the statements and proofs, and the theorems.
-/

namespace Kubernetes

/-- A Go string, as the sequence of its runes (Unicode code points). -/
abbrev GoString := List Char

/-- The tables of package `unicode` that the program reads, for runes above
the range the library code handles by a direct comparison. -/
structure UnicodeTables where
  /-- `unicode.To(LowerCase, r)` for a rune above `MaxASCII` (table `CaseRanges`). -/
  lower : Char → Char
  /-- Membership of a rune above `MaxASCII` in the letter category `L`. -/
  letter : Char → Bool
  /-- Membership of a rune above `MaxLatin1` in table `White_Space`. -/
  space : Char → Bool

/-! ## package unicode -/

namespace unicode

/-- Constant `unicode.MaxASCII`. -/
def MaxASCII : Nat := 0x7F

/-- Constant `unicode.MaxLatin1`. -/
def MaxLatin1 : Nat := 0xFF

/-- Function `unicode.ToLower`: an ASCII rune is mapped by a direct comparison
with the range A-Z, any other rune by the case table. -/
def ToLower (U : UnicodeTables) (r : Char) : Char :=
  if r.toNat ≤ MaxASCII then
    if 'A'.toNat ≤ r.toNat ∧ r.toNat ≤ 'Z'.toNat then
      Char.ofNat (r.toNat + ('a'.toNat - 'A'.toNat))
    else r
  else U.lower r

/-- Function `unicode.IsLetter`: the ASCII letters are A-Z and a-z; above
ASCII the letter table decides. -/
def IsLetter (U : UnicodeTables) (r : Char) : Bool :=
  if r.toNat ≤ MaxASCII then
    decide (('A'.toNat ≤ r.toNat ∧ r.toNat ≤ 'Z'.toNat) ∨
            ('a'.toNat ≤ r.toNat ∧ r.toNat ≤ 'z'.toNat))
  else U.letter r

/-- Function `unicode.IsSpace`: in Latin-1 the white space runes are
tab, line feed, vertical tab, form feed, carriage return, space, U+0085 and
U+00A0; above Latin-1 the table `White_Space` decides. -/
def IsSpace (U : UnicodeTables) (r : Char) : Bool :=
  if r.toNat ≤ MaxLatin1 then
    decide (r.toNat = 0x09 ∨ r.toNat = 0x0A ∨ r.toNat = 0x0B ∨ r.toNat = 0x0C ∨
            r.toNat = 0x0D ∨ r.toNat = 0x20 ∨ r.toNat = 0x85 ∨ r.toNat = 0xA0)
  else U.space r

end unicode

/-! ## package strings -/

namespace strings

/-- Function `strings.Split(s, sep)` for a separator of one rune, which is how
the program calls it: the segments of `s` between the occurrences of `sep`.
A string without `sep` gives the one segment `s`. -/
def Split (s : GoString) (sep : Char) : List GoString :=
  match s with
  | [] => [[]]
  | c :: cs =>
    if c = sep then [] :: Split cs sep
    else
      match Split cs sep with
      | [] => [[c]]
      | seg :: segs => (c :: seg) :: segs

/-- Function `strings.LastIndex(s, sep)` for a one-rune `sep`: the position of
the last occurrence of `sep` in `s`, or `-1`. -/
def LastIndex (s : GoString) (sep : Char) : Int :=
  match s with
  | [] => -1
  | c :: cs =>
    let i := LastIndex cs sep
    if 0 ≤ i then i + 1 else if c = sep then 0 else -1

/-- Function `strings.ToLower`: every rune is mapped by `unicode.ToLower`. -/
def ToLower (U : UnicodeTables) (s : GoString) : GoString :=
  s.map (unicode.ToLower U)

/-- Function `strings.TrimLeftFunc`: drop the leading runes that satisfy `f`. -/
def TrimLeftFunc (s : GoString) (f : Char → Bool) : GoString :=
  s.dropWhile f

/-- Function `strings.TrimRightFunc`: drop the trailing runes that satisfy `f`. -/
def TrimRightFunc (s : GoString) (f : Char → Bool) : GoString :=
  s.rdropWhile f

/-- Function `strings.TrimFunc`: `TrimRightFunc(TrimLeftFunc(s, f), f)`. -/
def TrimFunc (s : GoString) (f : Char → Bool) : GoString :=
  TrimRightFunc (TrimLeftFunc s f) f

/-- Function `strings.TrimSpace`: trim the runes that `unicode.IsSpace` accepts. -/
def TrimSpace (U : UnicodeTables) (s : GoString) : GoString :=
  TrimFunc s (unicode.IsSpace U)

end strings

/-! ## package path -/

namespace path

/-- Function `path.Base`: the last element of a slash-separated path.  The
empty path gives ".", trailing slashes are removed before the last element is
taken, and a path of slashes only gives "/". -/
def Base (path : GoString) : GoString :=
  if path = [] then ['.']
  else
    -- Strip trailing slashes.
    let path := path.rdropWhile (fun c => c = '/')
    -- Find the last element.
    let i := strings.LastIndex path '/'
    let path := if 0 ≤ i then path.drop (i + 1).toNat else path
    -- If empty now, it had only slashes.
    if path = [] then ['/'] else path

end path

/-! ## package strcase (github.com/stoewer/go-strcase) -/

namespace strcase

/-- Helper `isLower`: the rune is in the ASCII range a-z. -/
def isLower (ch : Char) : Bool :=
  decide ('a'.toNat ≤ ch.toNat ∧ ch.toNat ≤ 'z'.toNat)

/-- Helper `toLower`: an ASCII rune A-Z becomes a-z, any other rune is kept. -/
def toLower (ch : Char) : Char :=
  if 'A'.toNat ≤ ch.toNat ∧ ch.toNat ≤ 'Z'.toNat then Char.ofNat (ch.toNat + 32) else ch

/-- Helper `isUpper`: the rune is in the ASCII range A-Z. -/
def isUpper (ch : Char) : Bool :=
  decide ('A'.toNat ≤ ch.toNat ∧ ch.toNat ≤ 'Z'.toNat)

/-- Helper `toUpper`: an ASCII rune a-z becomes A-Z, any other rune is kept. -/
def toUpper (ch : Char) : Char :=
  if 'a'.toNat ≤ ch.toNat ∧ ch.toNat ≤ 'z'.toNat then Char.ofNat (ch.toNat - 32) else ch

/-- Helper `isSpace`: space, tab, line feed or carriage return. -/
def isSpace (ch : Char) : Bool :=
  decide (ch = ' ' ∨ ch = '\t' ∨ ch = '\n' ∨ ch = '\r')

/-- Helper `isDelimiter`: a hyphen, an underscore or an `isSpace` rune. -/
def isDelimiter (ch : Char) : Bool :=
  decide (ch = '-' ∨ ch = '_') || isSpace ch

/-- The zero rune, the initial value of `prev` and `curr` in `delimiterCase`. -/
def zeroRune : Char := Char.ofNat 0

/-- One iteration of the loop `for _, next := range s` of `delimiterCase`, on
the state `(buffer, prev, curr)`. -/
def loopBody (delimiter : Char) (adjustCase : Char → Char)
    (st : List Char × Char × Char) (next : Char) : List Char × Char × Char :=
  let buffer := st.1
  let prev := st.2.1
  let curr := st.2.2
  let buffer :=
    if isDelimiter curr then
      if !isDelimiter prev then buffer ++ [delimiter] else buffer
    else if isUpper curr then
      (if isLower prev || (isUpper prev && isLower next) then buffer ++ [delimiter]
       else buffer) ++ [adjustCase curr]
    else if curr ≠ zeroRune then buffer ++ [adjustCase curr]
    else buffer
  (buffer, curr, next)

/-- Function `delimiterCase`: the string in snake or kebab case, according to
the delimiter; upper case when `upperCase` is set. -/
def delimiterCase (U : UnicodeTables) (s : GoString) (delimiter : Char)
    (upperCase : Bool) : GoString :=
  let s := strings.TrimSpace U s
  let adjustCase := if upperCase then toUpper else toLower
  let st := s.foldl (loopBody delimiter adjustCase) ([], zeroRune, zeroRune)
  let buffer := st.1
  let prev := st.2.1
  let curr := st.2.2
  if s.length > 0 then
    (if isUpper curr && isLower prev && decide (prev ≠ zeroRune) then buffer ++ [delimiter]
     else buffer) ++ [adjustCase curr]
  else buffer

/-- Function `strcase.KebabCase`: `delimiterCase(s, '-', false)`. -/
def KebabCase (U : UnicodeTables) (s : GoString) : GoString :=
  delimiterCase U s '-' false

end strcase

/-! ## package kubernetes -/

/-- The pattern `disallowedChars`, the character class `[^a-z0-9-]`: whether
one rune matches it. -/
def disallowedChars (c : Char) : Bool :=
  !(decide ('a'.toNat ≤ c.toNat ∧ c.toNat ≤ 'z'.toNat) ||
    decide ('0'.toNat ≤ c.toNat ∧ c.toNat ≤ '9'.toNat) ||
    decide (c = '-'))

/-- Method `ReplaceAllString(src, "")` of a pattern that is one character
class: each match is one rune, and every matching rune is replaced by the empty
string. -/
def ReplaceAllStringEmpty (re : Char → Bool) (src : GoString) : GoString :=
  src.filter (fun c => !re c)

/-- Function `isDisallowedStartEndChar`: the rune is not a letter. -/
def isDisallowedStartEndChar (U : UnicodeTables) (rune : Char) : Bool :=
  !unicode.IsLetter U rune

/-- Function `SanitizeName`.  The index expression `strings.Split(name, ".")[0]`
fails when the slice is empty; the embedding returns `none` there. -/
def SanitizeName (U : UnicodeTables) (name : GoString) : Option GoString :=
  match (strings.Split name '.')[0]? with
  | none => none
  | some name =>
    let name := path.Base name
    let name := strings.ToLower U name
    let name := strcase.KebabCase U name
    let name := ReplaceAllStringEmpty disallowedChars name
    let name := strings.TrimFunc name (isDisallowedStartEndChar U)
    some name

end Kubernetes

/-! ## Auxiliary definitions for the statements and the proofs -/

namespace Kubernetes

/-- The text of a string before its first dot: the segment that the index
expression of `SanitizeName` selects (theorem `Split_head`). -/
def beforeDot (s : GoString) : GoString :=
  s.takeWhile (fun c => decide (c ≠ '.'))

/-- The stages of `SanitizeName` after the index expression, as one total
function (theorem `SanitizeName_eq`). -/
def afterSplit (U : UnicodeTables) (name : GoString) : GoString :=
  strings.TrimFunc
    (ReplaceAllStringEmpty disallowedChars
      (strcase.KebabCase U (strings.ToLower U (path.Base name))))
    (isDisallowedStartEndChar U)

namespace strcase

/-- What one iteration of the loop of `delimiterCase` appends to the buffer. -/
def emitted (delimiter : Char) (adjustCase : Char → Char) (prev curr next : Char) :
    List Char :=
  if isDelimiter curr then
    if !isDelimiter prev then [delimiter] else []
  else if isUpper curr then
    (if isLower prev || (isUpper prev && isLower next) then [delimiter] else []) ++
      [adjustCase curr]
  else if curr ≠ zeroRune then [adjustCase curr]
  else []

/-- What the statement after the loop appends to the buffer of a non-empty string. -/
def closing (delimiter : Char) (adjustCase : Char → Char) (prev curr : Char) : List Char :=
  (if isUpper curr && isLower prev && decide (prev ≠ zeroRune) then [delimiter] else []) ++
    [adjustCase curr]

/-- The output of the loop and of the closing statement, from the state
`(prev, curr)` with the runes `rest` still to be read (theorem
`delimiterCase_eq`). -/
def unrolled (delimiter : Char) (adjustCase : Char → Char) :
    Char → Char → List Char → List Char
  | prev, curr, [] => closing delimiter adjustCase prev curr
  | prev, curr, next :: rest =>
    emitted delimiter adjustCase prev curr next ++ unrolled delimiter adjustCase curr next rest

end strcase

/-- The one rune `c` after the fifth stage. -/
def kept (c : Char) : List Char :=
  if disallowedChars c then [] else [c]

/-- The output of the fourth and fifth stage on a string without ASCII
uppercase (theorem `filter_unrolled`): a delimiter that is not the last rune
gives a hyphen when the rune before it is not a delimiter and nothing
otherwise; every other rune is kept when it is of the allowed class. -/
def squeezed : Char → List Char → List Char
  | _, [] => []
  | _, [c] => kept c
  | p, c :: n :: rest =>
    (if strcase.isDelimiter c then (if strcase.isDelimiter p then [] else ['-'])
     else kept c) ++ squeezed c (n :: rest)

/-- A lowercase ASCII letter, the class `[a-z]`. -/
def IsLowerLetter (c : Char) : Prop := 'a' ≤ c ∧ c ≤ 'z'

/-- A lowercase ASCII letter or an ASCII digit, the class `[a-z0-9]`. -/
def IsLowerLetterOrDigit (c : Char) : Prop := IsLowerLetter c ∨ ('0' ≤ c ∧ c ≤ '9')

/-- A lowercase ASCII letter, an ASCII digit or a hyphen, the class `[a-z0-9-]`:
the runes that the pattern `disallowedChars` does not match. -/
def Allowed (c : Char) : Prop :=
  ('a' ≤ c ∧ c ≤ 'z') ∨ ('0' ≤ c ∧ c ≤ '9') ∨ c = '-'

/-- A string of the shape `^[a-z][a-z0-9-]*X$`, where `last` says which runes
`X` stands for. -/
def MatchesShape (last : Char → Prop) (s : GoString) : Prop :=
  ∃ c mid d, s = c :: (mid ++ [d]) ∧ IsLowerLetter c ∧ (∀ x ∈ mid, Allowed x) ∧ last d

/-- Whether no two consecutive runes of the string are both hyphens. -/
def noDoubleHyphen : GoString → Bool
  | a :: b :: rest => !(decide (a = '-') && decide (b = '-')) && noDoubleHyphen (b :: rest)
  | _ => true

/-- No two consecutive runes of the string are both hyphens. -/
def NoDoubleHyphen (s : GoString) : Prop := noDoubleHyphen s = true

/-- The string is made of ASCII runes only. -/
def IsASCII (s : GoString) : Prop := ∀ c ∈ s, c.toNat ≤ unicode.MaxASCII

/-- Tables without any entry: no case pair, no letter and no white space above
the runes that the library code compares directly.  On ASCII input the program
never reads the tables (theorem `SanitizeName_ascii`), so its result with
these tables is its result with any tables. -/
def noTables : UnicodeTables where
  lower := id
  letter := fun _ => false
  space := fun _ => false

/-- The case table sends no rune that is not a letter to a letter.  The Unicode
case pairs relate letters to letters, and the cased runes that are not letters
(Roman numerals, circled letters) to runes that are not letters either. -/
def LowerKeepsNonLetters (U : UnicodeTables) : Prop :=
  ∀ r, unicode.IsLetter U r = false → unicode.IsLetter U (unicode.ToLower U r) = false

/-- A rune that the fifth stage deletes and that no earlier stage acts upon:
it is not a dot or a slash, and its lowercase form is matched by
`disallowedChars` and is not a word delimiter (nor an ASCII uppercase letter,
which no lowercase form is). -/
def Stripped (U : UnicodeTables) (c : Char) : Prop :=
  c ≠ '.' ∧ c ≠ '/' ∧ disallowedChars (unicode.ToLower U c) = true ∧
    strcase.isDelimiter (unicode.ToLower U c) = false ∧
    strcase.isUpper (unicode.ToLower U c) = false

/-- An ASCII digit, the class `[0-9]`. -/
def IsDigit (c : Char) : Prop := '0' ≤ c ∧ c ≤ '9'

/-- The rune with an ASCII uppercase letter replaced by its lowercase form. -/
def lowerASCII (c : Char) : Char :=
  if 'A' ≤ c ∧ c ≤ 'Z' then Char.ofNat (c.toNat + 32) else c

/-- The case table gives no ASCII uppercase letter: the lowercase form of a
rune is never one of A-Z.  Lower-casing maps a rune to itself or to a lowercase
letter. -/
def LowerNeverUpper (U : UnicodeTables) : Prop :=
  ∀ r, strcase.isUpper (unicode.ToLower U r) = false

instance (c : Char) : Decidable (IsLowerLetter c) :=
  inferInstanceAs (Decidable ('a' ≤ c ∧ c ≤ 'z'))

instance (c : Char) : Decidable (IsLowerLetterOrDigit c) :=
  inferInstanceAs (Decidable (IsLowerLetter c ∨ ('0' ≤ c ∧ c ≤ '9')))

instance (c : Char) : Decidable (Allowed c) :=
  inferInstanceAs (Decidable (('a' ≤ c ∧ c ≤ 'z') ∨ ('0' ≤ c ∧ c ≤ '9') ∨ c = '-'))

instance (s : GoString) : Decidable (NoDoubleHyphen s) :=
  inferInstanceAs (Decidable (noDoubleHyphen s = true))

instance (s : GoString) : Decidable (IsASCII s) :=
  inferInstanceAs (Decidable (∀ c ∈ s, c.toNat ≤ unicode.MaxASCII))

instance (U : UnicodeTables) (c : Char) : Decidable (Stripped U c) :=
  inferInstanceAs (Decidable (c ≠ '.' ∧ c ≠ '/' ∧ disallowedChars (unicode.ToLower U c) = true ∧
    strcase.isDelimiter (unicode.ToLower U c) = false ∧
    strcase.isUpper (unicode.ToLower U c) = false))

instance (c : Char) : Decidable (IsDigit c) :=
  inferInstanceAs (Decidable ('0' ≤ c ∧ c ≤ '9'))

/-- The lowercase ASCII letters of a string, in their order. -/
def lettersOf (s : GoString) : GoString :=
  s.filter (fun c => decide (IsLowerLetter c))

end Kubernetes

/-! ## Theorems -/

namespace Kubernetes

/-! ### The first stage: the segment before the first dot -/

theorem Split_ne_nil (s : GoString) (sep : Char) : strings.Split s sep ≠ [] := by
  cases s with
  | nil => simp [strings.Split]
  | cons c cs =>
    unfold strings.Split
    split_ifs
    · simp
    · split <;> simp

theorem Split_head (s : GoString) (sep : Char) :
    (strings.Split s sep)[0]? = some (s.takeWhile (fun c => decide (c ≠ sep))) := by
  induction s with
  | nil => simp [strings.Split]
  | cons c cs ih =>
    unfold strings.Split
    by_cases h : c = sep
    · simp [h]
    · simp only [h, if_false]
      split
      · rename_i heq
        exact absurd heq (Split_ne_nil cs sep)
      · rename_i seg segs heq
        rw [heq] at ih
        simp at ih
        simp [h, ih]

theorem SanitizeName_eq (U : UnicodeTables) (s : GoString) :
    SanitizeName U s = some (afterSplit U (beforeDot s)) := by
  unfold SanitizeName
  rw [Split_head]
  rfl

theorem beforeDot_append_dot (a b : GoString) (ha : '.' ∉ a) :
    beforeDot (a ++ '.' :: b) = a := by
  unfold beforeDot
  rw [List.takeWhile_append_of_pos]
  · simp
  · intro c hc
    have : c ≠ '.' := fun h => ha (h ▸ hc)
    simpa using this

theorem beforeDot_of_not_mem (a : GoString) (ha : '.' ∉ a) : beforeDot a = a := by
  unfold beforeDot
  rw [List.takeWhile_eq_self_iff]
  intro c hc
  have : c ≠ '.' := fun h => ha (h ▸ hc)
  simpa using this

theorem beforeDot_not_mem (s : GoString) : '.' ∉ beforeDot s := by
  unfold beforeDot
  intro h
  have := List.mem_takeWhile_imp h
  simp at this

theorem beforeDot_subset (s : GoString) : ∀ c ∈ beforeDot s, c ∈ s := by
  intro c hc
  exact (List.takeWhile_prefix _).subset hc

/-! ### The second stage: path.Base -/

theorem LastIndex_of_not_mem (s : GoString) (sep : Char) (h : sep ∉ s) :
    strings.LastIndex s sep = -1 := by
  induction s with
  | nil => rfl
  | cons c cs ih =>
    simp only [List.mem_cons, not_or] at h
    unfold strings.LastIndex
    simp only [ih h.2]
    have : ¬ c = sep := fun e => h.1 e.symm
    simp [this]

theorem LastIndex_append (d b : GoString) (sep : Char) (h : sep ∉ b) :
    strings.LastIndex (d ++ sep :: b) sep = d.length := by
  induction d with
  | nil =>
    simp only [List.nil_append, List.length_nil]
    unfold strings.LastIndex
    simp [LastIndex_of_not_mem b sep h]
  | cons c cs ih =>
    simp only [List.cons_append]
    unfold strings.LastIndex
    simp only [ih]
    simp

theorem Base_nil : path.Base [] = ['.'] := by
  simp [path.Base]

theorem Base_of_no_slash (s : GoString) (hne : s ≠ []) (h : '/' ∉ s) :
    path.Base s = s := by
  have h1 : s.rdropWhile (fun c => decide (c = '/')) = s := by
    rw [List.rdropWhile_eq_self_iff]
    intro hl
    have : s.getLast hl ≠ '/' := fun e => h (e ▸ List.getLast_mem hl)
    simpa using this
  unfold path.Base
  simp only [hne, if_false, h1, LastIndex_of_not_mem s '/' h]
  simp [hne]

theorem Base_dir_slash (d b : GoString) (hne : b ≠ []) (h : '/' ∉ b) :
    path.Base (d ++ '/' :: b) = b := by
  have h1 : (d ++ '/' :: b).rdropWhile (fun c => decide (c = '/')) = d ++ '/' :: b := by
    rw [List.rdropWhile_eq_self_iff]
    intro hl
    have e : (d ++ '/' :: b).getLast hl = b.getLast hne := by
      rw [List.getLast_append_of_ne_nil (by simp)]
      exact List.getLast_cons hne
    have : b.getLast hne ≠ '/' := fun e => h (e ▸ List.getLast_mem hne)
    rw [e]
    simpa using this
  unfold path.Base
  simp only [h1, LastIndex_append d b '/' h]
  simp [hne]

/-! ### The fourth stage: the loop of delimiterCase, unrolled -/

namespace strcase

theorem loopBody_eq (d : Char) (a : Char → Char) (st : List Char × Char × Char) (next : Char) :
    loopBody d a st next = (st.1 ++ emitted d a st.2.1 st.2.2 next, st.2.2, next) := by
  unfold loopBody emitted
  simp only []
  split_ifs <;> simp

theorem foldl_loopBody (d : Char) (a : Char → Char) (rest : List Char) :
    ∀ (buf : List Char) (p c : Char),
      (rest.foldl (loopBody d a) (buf, p, c)).1 ++
        closing d a (rest.foldl (loopBody d a) (buf, p, c)).2.1
          (rest.foldl (loopBody d a) (buf, p, c)).2.2
        = buf ++ unrolled d a p c rest := by
  induction rest with
  | nil => intro buf p c; simp [unrolled]
  | cons n r ih =>
    intro buf p c
    rw [List.foldl_cons, loopBody_eq, ih]
    simp [unrolled]

theorem emitted_zero (d : Char) (a : Char → Char) (next : Char) :
    emitted d a zeroRune zeroRune next = [] := by
  unfold emitted
  have h1 : isDelimiter zeroRune = false := by decide
  have h2 : isUpper zeroRune = false := by decide
  simp [h1, h2]

theorem delimiterCase_eq (U : UnicodeTables) (s : GoString) (d : Char) (up : Bool) :
    delimiterCase U s d up =
      match strings.TrimSpace U s with
      | [] => []
      | c :: rest => unrolled d (if up then toUpper else toLower) zeroRune c rest := by
  unfold delimiterCase
  simp only []
  cases h : strings.TrimSpace U s with
  | nil => simp
  | cons c rest =>
    have := foldl_loopBody d (if up then toUpper else toLower) (c :: rest) [] zeroRune zeroRune
    simp only [List.nil_append] at this
    simp only [List.length_cons, gt_iff_lt, Nat.zero_lt_succ, if_true]
    rw [unrolled, emitted_zero, List.nil_append] at this
    rw [← this]
    unfold closing
    split_ifs <;> simp

theorem KebabCase_eq (U : UnicodeTables) (s : GoString) :
    KebabCase U s =
      match strings.TrimSpace U s with
      | [] => []
      | c :: rest => unrolled '-' toLower zeroRune c rest := by
  unfold KebabCase
  rw [delimiterCase_eq]
  rfl

end strcase

/-! ### The last two stages: the character class and the trim -/

theorem char_le_iff (a b : Char) : a ≤ b ↔ a.toNat ≤ b.toNat := Iff.rfl

theorem disallowedChars_eq_false_iff (c : Char) : disallowedChars c = false ↔ Allowed c := by
  unfold disallowedChars Allowed
  simp only [char_le_iff]
  simp only [Bool.not_eq_false', Bool.or_eq_true, decide_eq_true_eq, or_assoc]

theorem mem_ReplaceAllStringEmpty (s : GoString) (c : Char)
    (h : c ∈ ReplaceAllStringEmpty disallowedChars s) : Allowed c := by
  unfold ReplaceAllStringEmpty at h
  rw [List.mem_filter] at h
  rw [← disallowedChars_eq_false_iff]
  simpa using h.2

theorem TrimFunc_subset (s : GoString) (f : Char → Bool) :
    ∀ c ∈ strings.TrimFunc s f, c ∈ s := by
  intro c hc
  unfold strings.TrimFunc strings.TrimRightFunc strings.TrimLeftFunc at hc
  exact (List.dropWhile_suffix f).subset ((List.rdropWhile_prefix f _).subset hc)

theorem afterSplit_allowed (U : UnicodeTables) (x : GoString) :
    ∀ c ∈ afterSplit U x, Allowed c := by
  intro c hc
  exact mem_ReplaceAllStringEmpty _ c (TrimFunc_subset _ _ c hc)

theorem Allowed.toNat_le {c : Char} (h : Allowed c) : c.toNat ≤ unicode.MaxASCII := by
  unfold Allowed at h
  simp only [char_le_iff] at h
  unfold unicode.MaxASCII
  rcases h with h | h | h
  · have : 'z'.toNat = 122 := rfl
    omega
  · have : '9'.toNat = 57 := rfl
    omega
  · subst h; decide

theorem lower_of_allowed_letter (U : UnicodeTables) {c : Char} (h : Allowed c)
    (hl : isDisallowedStartEndChar U c = false) : 'a' ≤ c ∧ c ≤ 'z' := by
  have hA := h.toNat_le
  unfold isDisallowedStartEndChar unicode.IsLetter at hl
  simp only [hA, if_true] at hl
  unfold Allowed at h
  simp only [char_le_iff] at h ⊢
  have e1 : 'z'.toNat = 122 := rfl
  have e2 : '9'.toNat = 57 := rfl
  have e3 : '0'.toNat = 48 := rfl
  have e4 : 'a'.toNat = 97 := rfl
  have e5 : 'A'.toNat = 65 := rfl
  have e6 : 'Z'.toNat = 90 := rfl
  have e7 : '-'.toNat = 45 := rfl
  simp only [Bool.not_eq_false', decide_eq_true_eq] at hl
  rcases h with h | h | h
  · exact h
  · omega
  · subst h; omega

theorem TrimFunc_head_not (s : GoString) (f : Char → Bool) (hne : strings.TrimFunc s f ≠ []) :
    f ((strings.TrimFunc s f).head hne) = false := by
  unfold strings.TrimFunc strings.TrimRightFunc strings.TrimLeftFunc at hne ⊢
  have hp : (s.dropWhile f).rdropWhile f <+: s.dropWhile f := List.rdropWhile_prefix f _
  have hd : s.dropWhile f ≠ [] := by
    intro e
    rw [e] at hne
    simp at hne
  rw [hp.head hne]
  exact List.head_dropWhile_not f s hd

theorem TrimFunc_getLast_not (s : GoString) (f : Char → Bool)
    (hne : strings.TrimFunc s f ≠ []) :
    f ((strings.TrimFunc s f).getLast hne) = false := by
  unfold strings.TrimFunc strings.TrimRightFunc strings.TrimLeftFunc at hne ⊢
  have := List.rdropWhile_last_not f (s.dropWhile f) hne
  simpa using this

theorem afterSplit_ends (U : UnicodeTables) (x : GoString) (hne : afterSplit U x ≠ []) :
    ('a' ≤ (afterSplit U x).head hne ∧ (afterSplit U x).head hne ≤ 'z') ∧
    ('a' ≤ (afterSplit U x).getLast hne ∧ (afterSplit U x).getLast hne ≤ 'z') := by
  constructor
  · apply lower_of_allowed_letter U (afterSplit_allowed U x _ (List.head_mem hne))
    exact TrimFunc_head_not _ _ hne
  · apply lower_of_allowed_letter U (afterSplit_allowed U x _ (List.getLast_mem hne))
    exact TrimFunc_getLast_not _ _ hne

/-! ### Runes of the allowed class pass every stage unchanged -/

theorem toNat_ofNat_small (n : Nat) (h : n < 0xd800) : (Char.ofNat n).toNat = n := by
  have hv : n.isValidChar := Or.inl h
  unfold Char.ofNat
  rw [dif_pos hv]
  rfl

theorem eq_of_toNat_eq {a b : Char} (h : a.toNat = b.toNat) : a = b := by
  rw [← Char.ofNat_toNat a, ← Char.ofNat_toNat b, h]

/-- The numeric form of the allowed class. -/
theorem Allowed.bounds {c : Char} (h : Allowed c) :
    (97 ≤ c.toNat ∧ c.toNat ≤ 122) ∨ (48 ≤ c.toNat ∧ c.toNat ≤ 57) ∨ c.toNat = 45 := by
  unfold Allowed at h
  simp only [char_le_iff] at h
  rcases h with h | h | h
  · exact Or.inl h
  · exact Or.inr (Or.inl h)
  · subst h; exact Or.inr (Or.inr rfl)

theorem Allowed.unicode_ToLower (U : UnicodeTables) {c : Char} (h : Allowed c) :
    unicode.ToLower U c = c := by
  have hb := h.bounds
  unfold unicode.ToLower unicode.MaxASCII
  have e5 : 'A'.toNat = 65 := rfl
  have e6 : 'Z'.toNat = 90 := rfl
  rw [if_pos (by omega), if_neg (by omega)]

theorem Allowed.isUpper {c : Char} (h : Allowed c) : strcase.isUpper c = false := by
  have hb := h.bounds
  unfold strcase.isUpper
  have e5 : 'A'.toNat = 65 := rfl
  have e6 : 'Z'.toNat = 90 := rfl
  simp only [decide_eq_false_iff_not]
  omega

theorem Allowed.toLower {c : Char} (h : Allowed c) : strcase.toLower c = c := by
  have hb := h.bounds
  unfold strcase.toLower
  have e5 : 'A'.toNat = 65 := rfl
  have e6 : 'Z'.toNat = 90 := rfl
  rw [if_neg (by omega)]

theorem Allowed.ne_zero {c : Char} (h : Allowed c) : c ≠ strcase.zeroRune := by
  have hb := h.bounds
  intro e
  have : c.toNat = 0 := by rw [e]; rfl
  omega

theorem Allowed.isDelimiter {c : Char} (h : Allowed c) :
    strcase.isDelimiter c = decide (c = '-') := by
  have hb := h.bounds
  unfold strcase.isDelimiter strcase.isSpace
  have n1 : c ≠ '_' := by intro e; subst e; revert hb; decide
  have n2 : c ≠ ' ' := by intro e; subst e; revert hb; decide
  have n3 : c ≠ '\t' := by intro e; subst e; revert hb; decide
  have n4 : c ≠ '\n' := by intro e; subst e; revert hb; decide
  have n5 : c ≠ '\r' := by intro e; subst e; revert hb; decide
  simp [n1, n2, n3, n4, n5]

theorem Allowed.IsSpace (U : UnicodeTables) {c : Char} (h : Allowed c) :
    unicode.IsSpace U c = false := by
  have hb := h.bounds
  unfold unicode.IsSpace unicode.MaxLatin1
  rw [if_pos (by omega)]
  simp only [decide_eq_false_iff_not]
  omega

theorem lower_isLetter (U : UnicodeTables) {c : Char} (h : 'a' ≤ c ∧ c ≤ 'z') :
    isDisallowedStartEndChar U c = false := by
  simp only [char_le_iff] at h
  have e1 : 'z'.toNat = 122 := rfl
  have e4 : 'a'.toNat = 97 := rfl
  unfold isDisallowedStartEndChar unicode.IsLetter unicode.MaxASCII
  rw [if_pos (by omega)]
  simp only [Bool.not_eq_false', decide_eq_true_eq]
  exact Or.inr h

/-! ### Trimming -/

theorem TrimFunc_eq_self (s : GoString) (f : Char → Bool)
    (hh : ∀ c, s.head? = some c → f c = false)
    (hl : ∀ c, s.getLast? = some c → f c = false) : strings.TrimFunc s f = s := by
  unfold strings.TrimFunc strings.TrimRightFunc strings.TrimLeftFunc
  have h1 : s.dropWhile f = s := by
    cases s with
    | nil => rfl
    | cons a t =>
      have := hh a rfl
      simp [List.dropWhile_cons, this]
  rw [h1, List.rdropWhile_eq_self_iff]
  intro hne
  have := hl (s.getLast hne) (List.getLast?_eq_getLast _ hne)
  simp [this]

theorem dropWhile_congr_mem (s : GoString) (f g : Char → Bool) (h : ∀ c ∈ s, f c = g c) :
    s.dropWhile f = s.dropWhile g := by
  induction s with
  | nil => rfl
  | cons a t ih =>
    have ha := h a (List.mem_cons_self _ _)
    have ht : ∀ c ∈ t, f c = g c := fun c hc => h c (List.mem_cons_of_mem _ hc)
    simp only [List.dropWhile_cons, ha, ih ht]

theorem TrimFunc_congr (s : GoString) (f g : Char → Bool) (h : ∀ c ∈ s, f c = g c) :
    strings.TrimFunc s f = strings.TrimFunc s g := by
  unfold strings.TrimFunc strings.TrimRightFunc strings.TrimLeftFunc
  rw [dropWhile_congr_mem s f g h]
  unfold List.rdropWhile
  rw [dropWhile_congr_mem _ f g]
  intro c hc
  rw [List.mem_reverse] at hc
  exact h c ((List.dropWhile_suffix g).subset hc)

/-! ### Compliant names are fixed points -/

theorem NoDoubleHyphen_cons_cons (a b : Char) (rest : List Char) :
    NoDoubleHyphen (a :: b :: rest) ↔ ¬ (a = '-' ∧ b = '-') ∧ NoDoubleHyphen (b :: rest) := by
  unfold NoDoubleHyphen
  rw [noDoubleHyphen]
  simp only [Bool.and_eq_true, Bool.not_eq_true', Bool.and_eq_false_iff, decide_eq_false_iff_not,
    not_and_or]

theorem unrolled_allowed (rest : List Char) :
    ∀ (p c : Char), (∀ x ∈ c :: rest, Allowed x) → NoDoubleHyphen (c :: rest) →
      (strcase.isDelimiter p = true → c ≠ '-') →
      strcase.unrolled '-' strcase.toLower p c rest = c :: rest := by
  induction rest with
  | nil =>
    intro p c hall _ _
    have hc : Allowed c := hall c (List.mem_cons_self _ _)
    simp [strcase.unrolled, strcase.closing, hc.isUpper, hc.toLower]
  | cons n r ih =>
    intro p c hall hch hp
    have hc : Allowed c := hall c (List.mem_cons_self _ _)
    have hn : Allowed n := hall n (List.mem_cons_of_mem _ (List.mem_cons_self _ _))
    rw [NoDoubleHyphen_cons_cons] at hch
    have ih' := ih c n (fun x hx => hall x (List.mem_cons_of_mem _ hx)) hch.2
      (by
        intro hd
        rw [hc.isDelimiter] at hd
        have : c = '-' := by simpa using hd
        intro e
        exact hch.1 ⟨this, e⟩)
    rw [strcase.unrolled, ih']
    have he : strcase.emitted '-' strcase.toLower p c n = [c] := by
      unfold strcase.emitted
      by_cases hd : strcase.isDelimiter c = true
      · have hc' : c = '-' := by
          rw [hc.isDelimiter] at hd
          simpa using hd
        have hp' : strcase.isDelimiter p = false := by
          cases hpd : strcase.isDelimiter p with
          | false => rfl
          | true => exact absurd hc' (hp hpd)
        rw [if_pos hd, hp', hc']
        rfl
      · have hd' : strcase.isDelimiter c = false := by simpa using hd
        simp [hd', hc.isUpper, hc.toLower, hc.ne_zero]
    rw [he]
    rfl

theorem IsLowerLetter.allowed {c : Char} (h : IsLowerLetter c) : Allowed c := Or.inl h

theorem not_allowed_dot : ¬ Allowed '.' := by
  intro h
  have := h.bounds
  revert this
  decide

theorem not_allowed_slash : ¬ Allowed '/' := by
  intro h
  have := h.bounds
  revert this
  decide

theorem ToLower_allowed (U : UnicodeTables) (s : GoString) (h : ∀ c ∈ s, Allowed c) :
    strings.ToLower U s = s := by
  unfold strings.ToLower
  have : List.map (unicode.ToLower U) s = List.map id s :=
    List.map_congr_left (fun c hc => (h c hc).unicode_ToLower U)
  rw [this, List.map_id]

theorem TrimSpace_allowed (U : UnicodeTables) (s : GoString) (h : ∀ c ∈ s, Allowed c) :
    strings.TrimSpace U s = s := by
  unfold strings.TrimSpace
  apply TrimFunc_eq_self
  · intro c hc
    exact (h c (List.mem_of_mem_head? hc)).IsSpace U
  · intro c hc
    exact (h c (List.mem_of_mem_getLast? hc)).IsSpace U

theorem ReplaceAllStringEmpty_allowed (s : GoString) (h : ∀ c ∈ s, Allowed c) :
    ReplaceAllStringEmpty disallowedChars s = s := by
  unfold ReplaceAllStringEmpty
  rw [List.filter_eq_self]
  intro c hc
  have := (disallowedChars_eq_false_iff c).2 (h c hc)
  simp [this]

/-- The stages after the split leave a non-empty string unchanged when it is
made of allowed runes, begins and ends with a lowercase letter and has no two
consecutive hyphens. -/
theorem afterSplit_fixed (U : UnicodeTables) (s : GoString) (hne : s ≠ [])
    (hall : ∀ c ∈ s, Allowed c)
    (hhead : ∀ c, s.head? = some c → IsLowerLetter c)
    (hlast : ∀ c, s.getLast? = some c → IsLowerLetter c)
    (hch : NoDoubleHyphen s) : afterSplit U s = s := by
  have hslash : '/' ∉ s := fun hm => not_allowed_slash (hall _ hm)
  unfold afterSplit
  rw [Base_of_no_slash s hne hslash, ToLower_allowed U s hall, strcase.KebabCase_eq,
    TrimSpace_allowed U s hall]
  cases s with
  | nil => exact absurd rfl hne
  | cons c rest =>
    simp only []
    rw [unrolled_allowed rest strcase.zeroRune c hall hch
      (fun h => absurd h (by decide)),
      ReplaceAllStringEmpty_allowed _ hall]
    apply TrimFunc_eq_self
    · intro x hx
      exact lower_isLetter U (hhead x hx)
    · intro x hx
      exact lower_isLetter U (hlast x hx)

theorem fixed_of_compliant (U : UnicodeTables) (s : GoString) (hne : s ≠ [])
    (hall : ∀ c ∈ s, Allowed c)
    (hhead : ∀ c, s.head? = some c → IsLowerLetter c)
    (hlast : ∀ c, s.getLast? = some c → IsLowerLetter c)
    (hch : NoDoubleHyphen s) : SanitizeName U s = some s := by
  have hdot : '.' ∉ s := fun hm => not_allowed_dot (hall _ hm)
  rw [SanitizeName_eq, beforeDot_of_not_mem s hdot, afterSplit_fixed U s hne hall hhead hlast hch]

/-! ### On ASCII input the tables are never read -/

theorem Base_mem (p : GoString) : ∀ c ∈ path.Base p, c ∈ p ∨ c = '.' ∨ c = '/' := by
  intro c hc
  unfold path.Base at hc
  simp only [] at hc
  split_ifs at hc with h1 h2 h3 h4
  · simp at hc; exact Or.inr (Or.inl hc)
  · simp at hc; exact Or.inr (Or.inr hc)
  · exact Or.inl ((List.rdropWhile_prefix _ _).subset ((List.drop_suffix _ _).subset hc))
  · simp at hc; exact Or.inr (Or.inr hc)
  · exact Or.inl ((List.rdropWhile_prefix _ _).subset hc)

theorem unicode_ToLower_ascii (U V : UnicodeTables) (c : Char) (h : c.toNat ≤ unicode.MaxASCII) :
    unicode.ToLower U c = unicode.ToLower V c ∧ (unicode.ToLower U c).toNat ≤ unicode.MaxASCII := by
  unfold unicode.ToLower
  rw [if_pos h, if_pos h]
  refine ⟨rfl, ?_⟩
  split_ifs with hu
  · have e5 : 'A'.toNat = 65 := rfl
    have e6 : 'Z'.toNat = 90 := rfl
    have e4 : 'a'.toNat = 97 := rfl
    rw [toNat_ofNat_small _ (by omega)]
    unfold unicode.MaxASCII
    omega
  · exact h

theorem unicode_IsSpace_ascii (U V : UnicodeTables) (c : Char) (h : c.toNat ≤ unicode.MaxASCII) :
    unicode.IsSpace U c = unicode.IsSpace V c := by
  unfold unicode.IsSpace
  have : c.toNat ≤ unicode.MaxLatin1 := by
    unfold unicode.MaxASCII at h
    unfold unicode.MaxLatin1
    omega
  rw [if_pos this, if_pos this]

theorem unicode_IsLetter_ascii (U V : UnicodeTables) (c : Char) (h : c.toNat ≤ unicode.MaxASCII) :
    unicode.IsLetter U c = unicode.IsLetter V c := by
  unfold unicode.IsLetter
  rw [if_pos h, if_pos h]

theorem KebabCase_ascii (U V : UnicodeTables) (s : GoString) (h : IsASCII s) :
    strcase.KebabCase U s = strcase.KebabCase V s := by
  rw [strcase.KebabCase_eq, strcase.KebabCase_eq]
  have : strings.TrimSpace U s = strings.TrimSpace V s :=
    TrimFunc_congr s _ _ (fun c hc => unicode_IsSpace_ascii U V c (h c hc))
  rw [this]

theorem afterSplit_ascii (U V : UnicodeTables) (s : GoString) (h : IsASCII s) :
    afterSplit U s = afterSplit V s := by
  have hb : IsASCII (path.Base s) := by
    intro c hc
    rcases Base_mem s c hc with h1 | h1 | h1
    · exact h c h1
    · subst h1; decide
    · subst h1; decide
  have hl : strings.ToLower U (path.Base s) = strings.ToLower V (path.Base s) :=
    List.map_congr_left (fun c hc => (unicode_ToLower_ascii U V c (hb c hc)).1)
  have hl2 : IsASCII (strings.ToLower V (path.Base s)) := by
    intro c hc
    unfold strings.ToLower at hc
    rw [List.mem_map] at hc
    obtain ⟨a, ha, rfl⟩ := hc
    exact (unicode_ToLower_ascii V V a (hb a ha)).2
  unfold afterSplit
  rw [hl, KebabCase_ascii U V _ hl2]
  apply TrimFunc_congr
  intro c hc
  unfold isDisallowedStartEndChar
  rw [unicode_IsLetter_ascii U V c (mem_ReplaceAllStringEmpty _ c hc).toNat_le]

/-- On ASCII input the result of the program does not depend on the tables. -/
theorem SanitizeName_ascii (U V : UnicodeTables) (s : GoString) (h : IsASCII s) :
    SanitizeName U s = SanitizeName V s := by
  rw [SanitizeName_eq, SanitizeName_eq, afterSplit_ascii U V]
  intro c hc
  exact h c (beforeDot_subset s c hc)

theorem beforeDot_dir_slash (d b : GoString) (hd : '.' ∉ d) :
    beforeDot (d ++ '/' :: b) = d ++ '/' :: beforeDot b := by
  unfold beforeDot
  rw [List.takeWhile_append_of_pos]
  · rw [List.takeWhile_cons_of_pos (by decide)]
  · intro c hc
    have : c ≠ '.' := fun h => hd (h ▸ hc)
    simpa using this

theorem beforeDot_ne_nil (b : GoString) (hb : b ≠ []) (hdot : b.head? ≠ some '.') :
    beforeDot b ≠ [] := by
  cases b with
  | nil => exact absurd rfl hb
  | cons c t =>
    have : c ≠ '.' := by
      intro e
      apply hdot
      simp [e]
    unfold beforeDot
    rw [List.takeWhile_cons_of_pos (by simpa using this)]
    simp

theorem shape_fixed (U : UnicodeTables) (s : GoString)
    (h : (MatchesShape IsLowerLetter s ∧ NoDoubleHyphen s) ∨ (∃ c, s = [c] ∧ IsLowerLetter c)) :
    SanitizeName U s = some s := by
  rcases h with ⟨⟨c, mid, d, rfl, hc, hmid, hd⟩, hch⟩ | ⟨c, rfl, hc⟩
  · apply fixed_of_compliant U _ (by simp) _ _ _ hch
    · intro x hx
      simp only [List.mem_cons, List.mem_append, List.mem_singleton, List.not_mem_nil,
        or_false] at hx
      rcases hx with rfl | hx | rfl
      · exact hc.allowed
      · exact hmid x hx
      · exact hd.allowed
    · intro x hx
      simp only [List.head?_cons, Option.some.injEq] at hx
      exact hx ▸ hc
    · intro x hx
      rw [← List.cons_append, List.getLast?_concat] at hx
      simp only [Option.some.injEq] at hx
      exact hx ▸ hd
  · apply fixed_of_compliant U _ (by simp)
    · intro x hx
      simp only [List.mem_singleton] at hx
      exact hx ▸ hc.allowed
    · intro x hx
      simp only [List.head?_cons, Option.some.injEq] at hx
      exact hx ▸ hc
    · intro x hx
      simp only [List.getLast?_singleton, Option.some.injEq] at hx
      exact hx ▸ hc
    · simp [NoDoubleHyphen, noDoubleHyphen]

/-! ### A double hyphen makes the output shorter -/

theorem emitted_allowed (p c n : Char) (hc : Allowed c) :
    strcase.emitted '-' strcase.toLower p c n =
      if c = '-' ∧ strcase.isDelimiter p = true then [] else [c] := by
  unfold strcase.emitted
  rw [hc.isDelimiter]
  by_cases h : c = '-'
  · subst h
    cases hp : strcase.isDelimiter p <;> simp
  · simp [h, hc.isUpper, hc.toLower, hc.ne_zero]

theorem closing_allowed (p c : Char) (hc : Allowed c) :
    strcase.closing '-' strcase.toLower p c = [c] := by
  simp [strcase.closing, hc.isUpper, hc.toLower]

theorem emitted_allowed_length (p c n : Char) (hc : Allowed c) :
    (strcase.emitted '-' strcase.toLower p c n).length ≤ 1 := by
  rw [emitted_allowed p c n hc]
  split_ifs <;> simp

theorem unrolled_allowed_length (rest : List Char) :
    ∀ (p c : Char), (∀ x ∈ c :: rest, Allowed x) →
      (strcase.unrolled '-' strcase.toLower p c rest).length ≤ rest.length + 1 := by
  induction rest with
  | nil =>
    intro p c hall
    rw [strcase.unrolled, closing_allowed p c (hall c (List.mem_cons_self _ _))]
    simp
  | cons n r ih =>
    intro p c hall
    have hc : Allowed c := hall c (List.mem_cons_self _ _)
    have h1 := emitted_allowed_length p c n hc
    have h2 := ih c n (fun x hx => hall x (List.mem_cons_of_mem _ hx))
    rw [strcase.unrolled, List.length_append, List.length_cons]
    omega

theorem unrolled_double_hyphen_length (rest : List Char) :
    ∀ (p c : Char), (∀ x ∈ c :: rest, Allowed x) → ¬ NoDoubleHyphen (c :: rest) →
      (c :: rest).getLast? ≠ some '-' →
      (strcase.unrolled '-' strcase.toLower p c rest).length < rest.length + 1 := by
  induction rest with
  | nil =>
    intro p c _ hnd _
    exact absurd (by simp [NoDoubleHyphen, noDoubleHyphen]) hnd
  | cons n r ih =>
    intro p c hall hnd hlast
    have hc : Allowed c := hall c (List.mem_cons_self _ _)
    have hn : Allowed n := hall n (List.mem_cons_of_mem _ (List.mem_cons_self _ _))
    have hall' : ∀ x ∈ n :: r, Allowed x := fun x hx => hall x (List.mem_cons_of_mem _ hx)
    have h1 := emitted_allowed_length p c n hc
    have hlast' : (n :: r).getLast? ≠ some '-' := by
      rwa [List.getLast?_cons_cons] at hlast
    rw [strcase.unrolled, List.length_append, List.length_cons]
    by_cases hnd' : NoDoubleHyphen (n :: r)
    · have hcn : c = '-' ∧ n = '-' := by
        by_contra hcn
        exact hnd ((NoDoubleHyphen_cons_cons c n r).2 ⟨hcn, hnd'⟩)
      cases r with
      | nil =>
        exfalso
        apply hlast'
        simp [hcn.2]
      | cons m r' =>
        have h2 := unrolled_allowed_length r' n m (fun x hx => hall' x (List.mem_cons_of_mem _ hx))
        have h3 : strcase.emitted '-' strcase.toLower c n m = [] := by
          rw [emitted_allowed c n m hn, if_pos]
          refine ⟨hcn.2, ?_⟩
          rw [hcn.1]
          decide
        rw [strcase.unrolled, h3, List.nil_append]
        simp only [List.length_cons]
        omega
    · have h2 := ih c n hall' hnd' hlast'
      omega

theorem TrimFunc_length_le (s : GoString) (f : Char → Bool) :
    (strings.TrimFunc s f).length ≤ s.length := by
  unfold strings.TrimFunc strings.TrimRightFunc strings.TrimLeftFunc
  exact ((List.rdropWhile_prefix f _).length_le).trans ((List.dropWhile_suffix f).length_le)

theorem ReplaceAllStringEmpty_length_le (re : Char → Bool) (s : GoString) :
    (ReplaceAllStringEmpty re s).length ≤ s.length := by
  unfold ReplaceAllStringEmpty
  exact List.length_filter_le _ _

/-- The stages after the split, on a non-empty string of allowed runes: the
trim of the filtered output of the unrolled loop. -/
theorem afterSplit_of_allowed (U : UnicodeTables) (c : Char) (rest : List Char)
    (hall : ∀ x ∈ c :: rest, Allowed x) :
    afterSplit U (c :: rest) =
      strings.TrimFunc
        (ReplaceAllStringEmpty disallowedChars
          (strcase.unrolled '-' strcase.toLower strcase.zeroRune c rest))
        (isDisallowedStartEndChar U) := by
  have hslash : '/' ∉ c :: rest := fun hm => not_allowed_slash (hall _ hm)
  unfold afterSplit
  rw [Base_of_no_slash _ (by simp) hslash, ToLower_allowed U _ hall, strcase.KebabCase_eq,
    TrimSpace_allowed U _ hall]

theorem afterSplit_head (U : UnicodeTables) (x : GoString) :
    ∀ c, (afterSplit U x).head? = some c → IsLowerLetter c := by
  intro c hc
  have hne : afterSplit U x ≠ [] := by
    intro e
    rw [e] at hc
    simp at hc
  rw [List.head?_eq_head hne] at hc
  simp only [Option.some.injEq] at hc
  exact hc ▸ (afterSplit_ends U x hne).1

theorem afterSplit_getLast (U : UnicodeTables) (x : GoString) :
    ∀ c, (afterSplit U x).getLast? = some c → IsLowerLetter c := by
  intro c hc
  have hne : afterSplit U x ≠ [] := by
    intro e
    rw [e] at hc
    simp at hc
  rw [List.getLast?_eq_getLast _ hne] at hc
  simp only [Option.some.injEq] at hc
  exact hc ▸ (afterSplit_ends U x hne).2

/-- A non-empty fixed point of the program is made of allowed runes, begins
and ends with a lowercase letter and has no two consecutive hyphens. -/
theorem compliant_of_fixed (U : UnicodeTables) (s : GoString) (hne : s ≠ [])
    (h : SanitizeName U s = some s) :
    (∀ c ∈ s, Allowed c) ∧ (∀ c, s.head? = some c → IsLowerLetter c) ∧
      (∀ c, s.getLast? = some c → IsLowerLetter c) ∧ NoDoubleHyphen s := by
  rw [SanitizeName_eq, Option.some.injEq] at h
  have hall : ∀ c ∈ s, Allowed c := by
    intro c hc
    rw [← h] at hc
    exact afterSplit_allowed U _ c hc
  have hdot : '.' ∉ s := fun hm => not_allowed_dot (hall _ hm)
  rw [beforeDot_of_not_mem s hdot] at h
  have hhead : ∀ c, s.head? = some c → IsLowerLetter c := by
    intro c hc
    rw [← h] at hc
    exact afterSplit_head U s c hc
  have hlast : ∀ c, s.getLast? = some c → IsLowerLetter c := by
    intro c hc
    rw [← h] at hc
    exact afterSplit_getLast U s c hc
  refine ⟨hall, hhead, hlast, ?_⟩
  by_contra hnd
  cases s with
  | nil => exact hne rfl
  | cons c rest =>
    have hl : (c :: rest).getLast? ≠ some '-' := by
      intro e
      have := hlast _ e
      revert this
      decide
    have h1 := unrolled_double_hyphen_length rest strcase.zeroRune c hall hnd hl
    have h2 := TrimFunc_length_le
      (ReplaceAllStringEmpty disallowedChars
        (strcase.unrolled '-' strcase.toLower strcase.zeroRune c rest))
      (isDisallowedStartEndChar U)
    have h3 := ReplaceAllStringEmpty_length_le disallowedChars
      (strcase.unrolled '-' strcase.toLower strcase.zeroRune c rest)
    rw [← afterSplit_of_allowed U c rest hall, h] at h2
    simp only [List.length_cons] at h2
    omega

theorem SanitizeName_nil (U : UnicodeTables) : SanitizeName U [] = some [] :=
  (SanitizeName_ascii U noTables [] (by decide)).trans (by decide)

/-! ### Where the runes of the output come from -/

theorem mem_emitted (d : Char) (a : Char → Char) (p c n x : Char)
    (h : x ∈ strcase.emitted d a p c n) : x = d ∨ x = a c := by
  unfold strcase.emitted at h
  split_ifs at h <;> simp at h <;> tauto

theorem mem_closing (d : Char) (a : Char → Char) (p c x : Char)
    (h : x ∈ strcase.closing d a p c) : x = d ∨ x = a c := by
  unfold strcase.closing at h
  split_ifs at h <;> simp at h <;> tauto

theorem mem_unrolled (d : Char) (a : Char → Char) (rest : List Char) :
    ∀ (p c x : Char), x ∈ strcase.unrolled d a p c rest →
      x = d ∨ ∃ y ∈ c :: rest, x = a y := by
  induction rest with
  | nil =>
    intro p c x h
    rw [strcase.unrolled] at h
    rcases mem_closing d a p c x h with h | h
    · exact Or.inl h
    · exact Or.inr ⟨c, List.mem_cons_self _ _, h⟩
  | cons n r ih =>
    intro p c x h
    rw [strcase.unrolled, List.mem_append] at h
    rcases h with h | h
    · rcases mem_emitted d a p c n x h with h | h
      · exact Or.inl h
      · exact Or.inr ⟨c, List.mem_cons_self _ _, h⟩
    · rcases ih c n x h with h | ⟨y, hy, h⟩
      · exact Or.inl h
      · exact Or.inr ⟨y, List.mem_cons_of_mem _ hy, h⟩

theorem mem_KebabCase (U : UnicodeTables) (s : GoString) (x : Char)
    (h : x ∈ strcase.KebabCase U s) : x = '-' ∨ ∃ y ∈ s, x = strcase.toLower y := by
  rw [strcase.KebabCase_eq] at h
  cases ht : strings.TrimSpace U s with
  | nil =>
    rw [ht] at h
    simp at h
  | cons c rest =>
    rw [ht] at h
    rcases mem_unrolled '-' strcase.toLower rest strcase.zeroRune c x h with h | ⟨y, hy, h⟩
    · exact Or.inl h
    · refine Or.inr ⟨y, ?_, h⟩
      rw [← ht] at hy
      exact TrimFunc_subset _ _ y hy

theorem TrimFunc_eq_nil (s : GoString) (f : Char → Bool) (h : ∀ c ∈ s, f c = true) :
    strings.TrimFunc s f = [] := by
  unfold strings.TrimFunc strings.TrimRightFunc strings.TrimLeftFunc
  rw [List.dropWhile_eq_nil_iff.2 h]
  rfl

theorem IsLetter_toLower (U : UnicodeTables) (a : Char) (h : unicode.IsLetter U a = false) :
    unicode.IsLetter U (strcase.toLower a) = false := by
  unfold strcase.toLower
  split_ifs with hu
  · exfalso
    have e6 : 'Z'.toNat = 90 := rfl
    unfold unicode.IsLetter unicode.MaxASCII at h
    rw [if_pos (by omega)] at h
    simp only [decide_eq_false_iff_not] at h
    exact h (Or.inl hu)
  · exact h

theorem noTables_LowerKeepsNonLetters : LowerKeepsNonLetters noTables := by
  intro r h
  unfold unicode.ToLower
  split_ifs with h1 h2
  · exfalso
    unfold unicode.IsLetter at h
    rw [if_pos h1] at h
    simp only [decide_eq_false_iff_not] at h
    exact h (Or.inl h2)
  · exact h
  · exact h

/-! ### The fourth and fifth stage together, on a string without uppercase -/

theorem toLower_of_not_isUpper (c : Char) (h : strcase.isUpper c = false) :
    strcase.toLower c = c := by
  unfold strcase.isUpper at h
  unfold strcase.toLower
  simp only [decide_eq_false_iff_not] at h
  rw [if_neg h]

theorem filter_singleton (c : Char) : ReplaceAllStringEmpty disallowedChars [c] = kept c := by
  unfold ReplaceAllStringEmpty kept
  cases h : disallowedChars c <;> simp [h]

theorem filter_append (a b : GoString) :
    ReplaceAllStringEmpty disallowedChars (a ++ b) =
      ReplaceAllStringEmpty disallowedChars a ++ ReplaceAllStringEmpty disallowedChars b := by
  unfold ReplaceAllStringEmpty
  exact List.filter_append _ _

theorem filter_unrolled (rest : List Char) :
    ∀ (p c : Char), (∀ x ∈ c :: rest, strcase.isUpper x = false) →
      ReplaceAllStringEmpty disallowedChars (strcase.unrolled '-' strcase.toLower p c rest) =
        squeezed p (c :: rest) := by
  induction rest with
  | nil =>
    intro p c hup
    have hc := hup c (List.mem_cons_self _ _)
    rw [strcase.unrolled, squeezed]
    unfold strcase.closing
    simp only [hc, Bool.false_and, toLower_of_not_isUpper c hc]
    exact filter_singleton c
  | cons n r ih =>
    intro p c hup
    have hc := hup c (List.mem_cons_self _ _)
    rw [strcase.unrolled, squeezed, filter_append,
      ih c n (fun x hx => hup x (List.mem_cons_of_mem _ hx))]
    congr 1
    unfold strcase.emitted
    by_cases hd : strcase.isDelimiter c = true
    · rw [if_pos hd, if_pos hd]
      cases hp : strcase.isDelimiter p
      · simp only [Bool.not_false, if_true, Bool.false_eq_true, if_false]
        rfl
      · simp only [Bool.not_true, Bool.false_eq_true, if_false, if_true]
        rfl
    · rw [if_neg hd, if_neg hd, hc]
      simp only [Bool.false_eq_true, if_false]
      by_cases hz : c = strcase.zeroRune
      · subst hz
        simp only [ne_eq, not_true_eq_false, if_false]
        rfl
      · simp only [ne_eq, hz, not_false_eq_true, if_true, toLower_of_not_isUpper c hc]
        exact filter_singleton c

theorem squeezed_plain (l : List Char) :
    ∀ (p : Char) (t : List Char), (∀ c ∈ l, strcase.isDelimiter c = false) →
      squeezed p (l ++ t) =
        ReplaceAllStringEmpty disallowedChars l ++ squeezed (l.getLast?.getD p) t := by
  induction l with
  | nil => intro p t _; rfl
  | cons c l' ih =>
    intro p t h
    have hc := h c (List.mem_cons_self _ _)
    have hl : ∀ x ∈ l', strcase.isDelimiter x = false :=
      fun x hx => h x (List.mem_cons_of_mem _ hx)
    have hf : ReplaceAllStringEmpty disallowedChars (c :: l') =
        kept c ++ ReplaceAllStringEmpty disallowedChars l' := by
      rw [← filter_singleton, ← filter_append]
      rfl
    have hg : (c :: l').getLast?.getD p = l'.getLast?.getD c := by
      cases l' with
      | nil => rfl
      | cons a b => rw [List.getLast?_cons_cons]; simp [List.getLast?_cons]
    rw [hf, hg, List.append_assoc, ← ih c t hl]
    cases hlt : l' ++ t with
    | nil =>
      rw [List.cons_append, hlt]
      simp [squeezed]
    | cons n r =>
      rw [List.cons_append, hlt, squeezed, hc]
      simp

theorem squeezed_delimiter (p d n : Char) (t : List Char)
    (hd : strcase.isDelimiter d = true) (hp : strcase.isDelimiter p = false) :
    squeezed p (d :: n :: t) = '-' :: squeezed d (n :: t) := by
  rw [squeezed, hd, hp]
  rfl

theorem filter_KebabCase (U : UnicodeTables) (s : GoString)
    (hup : ∀ c ∈ s, strcase.isUpper c = false) :
    ReplaceAllStringEmpty disallowedChars (strcase.KebabCase U s) =
      squeezed strcase.zeroRune (strings.TrimSpace U s) := by
  rw [strcase.KebabCase_eq]
  cases ht : strings.TrimSpace U s with
  | nil => rfl
  | cons c rest =>
    apply filter_unrolled
    intro x hx
    rw [← ht] at hx
    exact hup x (TrimFunc_subset _ _ x hx)

/-! ### Words, word delimiters and deleted runes -/

theorem IsLowerLetter.notDelimiter {c : Char} (h : IsLowerLetter c) :
    strcase.isDelimiter c = false := by
  rw [h.allowed.isDelimiter]
  have : c ≠ '-' := by
    intro e
    subst e
    revert h
    decide
  simpa using this

theorem IsLowerLetter.ne_dot {c : Char} (h : IsLowerLetter c) : c ≠ '.' := by
  intro e
  subst e
  revert h
  decide

theorem IsLowerLetter.ne_slash {c : Char} (h : IsLowerLetter c) : c ≠ '/' := by
  intro e
  subst e
  revert h
  decide

theorem rdropWhile_append_left (f : Char → Bool) (A : GoString) (hA : A ≠ [])
    (hl : f (A.getLast hA) = false) (X : GoString) :
    (A ++ X).rdropWhile f = A ++ X.rdropWhile f := by
  induction X using List.reverseRecOn with
  | nil =>
    rw [List.append_nil, List.rdropWhile_nil, List.append_nil, List.rdropWhile_eq_self_iff]
    intro _
    simp [hl]
  | append_singleton X y ih =>
    by_cases hy : f y = true
    · rw [← List.append_assoc, List.rdropWhile_concat_pos _ _ _ hy,
        List.rdropWhile_concat_pos _ _ _ hy, ih]
    · rw [← List.append_assoc, List.rdropWhile_concat_neg _ _ _ hy,
        List.rdropWhile_concat_neg _ _ _ hy, List.append_assoc]

theorem squeezed_plain_all (l : List Char) (p : Char)
    (h : ∀ c ∈ l, strcase.isDelimiter c = false) :
    squeezed p l = ReplaceAllStringEmpty disallowedChars l := by
  have := squeezed_plain l p [] h
  rw [List.append_nil] at this
  rw [this]
  simp [squeezed]

/-! ### Letters among deleted runes -/

theorem dropWhile_append_of_exists (p : Char → Bool) (l r : GoString)
    (h : ∃ c ∈ l, p c = false) : (l ++ r).dropWhile p = l.dropWhile p ++ r := by
  induction l with
  | nil => simp at h
  | cons a t ih =>
    by_cases ha : p a = true
    · obtain ⟨c, hc, hpc⟩ := h
      have hct : c ∈ t := by
        rcases List.mem_cons.1 hc with e | e
        · rw [e, ha] at hpc
          exact absurd hpc (by decide)
        · exact e
      rw [List.cons_append, List.dropWhile_cons_of_pos ha, List.dropWhile_cons_of_pos ha,
        ih ⟨c, hct, hpc⟩]
    · rw [List.cons_append, List.dropWhile_cons_of_neg ha, List.dropWhile_cons_of_neg ha,
        List.cons_append]

theorem rdropWhile_append_of_exists (p : Char → Bool) (r l : GoString)
    (h : ∃ c ∈ l, p c = false) : (r ++ l).rdropWhile p = r ++ l.rdropWhile p := by
  obtain ⟨c, hc, hpc⟩ := h
  unfold List.rdropWhile
  rw [List.reverse_append,
    dropWhile_append_of_exists p l.reverse r.reverse ⟨c, List.mem_reverse.2 hc, hpc⟩,
    List.reverse_append, List.reverse_reverse]

theorem filter_dropWhile (p q : Char → Bool) (l : GoString)
    (h : ∀ c ∈ l, p c = true → q c = false) : (l.dropWhile p).filter q = l.filter q := by
  induction l with
  | nil => rfl
  | cons a t ih =>
    have ht : ∀ c ∈ t, p c = true → q c = false :=
      fun c hc => h c (List.mem_cons_of_mem _ hc)
    by_cases ha : p a = true
    · rw [List.dropWhile_cons_of_pos ha, ih ht,
        List.filter_cons_of_neg (by simp [h a (List.mem_cons_self _ _) ha])]
    · rw [List.dropWhile_cons_of_neg ha]

theorem filter_rdropWhile (p q : Char → Bool) (l : GoString)
    (h : ∀ c ∈ l, p c = true → q c = false) : (l.rdropWhile p).filter q = l.filter q := by
  induction l using List.reverseRecOn with
  | nil => rfl
  | append_singleton t a ih =>
    have ht : ∀ c ∈ t, p c = true → q c = false :=
      fun c hc => h c (List.mem_append_left _ hc)
    by_cases ha : p a = true
    · have hq : q a = false := h a (by simp) ha
      rw [List.rdropWhile_concat_pos _ _ _ ha, ih ht, List.filter_append]
      simp [hq]
    · rw [List.rdropWhile_concat_neg _ _ _ ha]

theorem filter_TrimFunc (s : GoString) (f : Char → Bool)
    (h : ∀ c ∈ s, f c = true → disallowedChars c = true) :
    ReplaceAllStringEmpty disallowedChars (strings.TrimFunc s f) =
      ReplaceAllStringEmpty disallowedChars s := by
  unfold ReplaceAllStringEmpty strings.TrimFunc strings.TrimRightFunc strings.TrimLeftFunc
  have h' : ∀ c ∈ s, f c = true → (fun c => !disallowedChars c) c = false := by
    intro c hc hf
    simp [h c hc hf]
  rw [filter_rdropWhile f _ _ (fun c hc => h' c ((List.dropWhile_suffix f).subset hc)),
    filter_dropWhile f _ s h']

theorem Stripped.not_letter {U : UnicodeTables} {c : Char} (h : Stripped U c) :
    ¬ IsLowerLetter c := by
  intro hl
  have h1 := h.2.2.1
  rw [hl.allowed.unicode_ToLower U, (disallowedChars_eq_false_iff c).2 hl.allowed] at h1
  exact absurd h1 (by decide)

/-- What is known of the lowercase form of a rune that is a lowercase ASCII
letter or a deleted rune. -/
theorem lowered_rune (U : UnicodeTables) (c : Char) (h : IsLowerLetter c ∨ Stripped U c) :
    strcase.isDelimiter (unicode.ToLower U c) = false ∧
      strcase.isUpper (unicode.ToLower U c) = false ∧
      (unicode.IsSpace U (unicode.ToLower U c) = true →
        disallowedChars (unicode.ToLower U c) = true) := by
  rcases h with h | h
  · rw [h.allowed.unicode_ToLower U]
    refine ⟨h.notDelimiter, h.allowed.isUpper, fun hs => ?_⟩
    rw [h.allowed.IsSpace U] at hs
    exact absurd hs (by decide)
  · exact ⟨h.2.2.2.1, h.2.2.2.2, fun _ => h.2.2.1⟩

theorem filter_lowered (U : UnicodeTables) (s : GoString)
    (h : ∀ c ∈ s, IsLowerLetter c ∨ Stripped U c) :
    ReplaceAllStringEmpty disallowedChars (s.map (unicode.ToLower U)) = lettersOf s := by
  induction s with
  | nil => rfl
  | cons a t ih =>
    have ht := ih (fun c hc => h c (List.mem_cons_of_mem _ hc))
    unfold ReplaceAllStringEmpty lettersOf at ht ⊢
    rcases h a (List.mem_cons_self _ _) with ha | ha
    · rw [List.map_cons, ha.allowed.unicode_ToLower U,
        List.filter_cons_of_pos (by simp [(disallowedChars_eq_false_iff a).2 ha.allowed]),
        List.filter_cons_of_pos (by simpa using ha), ht]
    · rw [List.map_cons, List.filter_cons_of_neg (by simp [ha.2.2.1]),
        List.filter_cons_of_neg (by simpa using ha.not_letter), ht]

theorem mem_lettersOf (s : GoString) (c : Char) (h : c ∈ lettersOf s) :
    IsLowerLetter c ∧ c ∈ s := by
  unfold lettersOf at h
  rw [List.mem_filter] at h
  exact ⟨by simpa using h.2, h.1⟩

theorem lettersOf_append (a b : GoString) : lettersOf (a ++ b) = lettersOf a ++ lettersOf b := by
  unfold lettersOf
  exact List.filter_append _ _

theorem exists_letter (s : GoString) (h : lettersOf s ≠ []) : ∃ c ∈ s, IsLowerLetter c := by
  obtain ⟨c, t, e⟩ := List.exists_cons_of_ne_nil h
  have := mem_lettersOf s c (by rw [e]; exact List.mem_cons_self _ _)
  exact ⟨c, this.2, this.1⟩

/-- The program on a string of lowercase ASCII letters and deleted runes: the
letters of the string. -/
theorem letters_among_stripped (U : UnicodeTables) (s : GoString)
    (h : ∀ c ∈ s, IsLowerLetter c ∨ Stripped U c) :
    SanitizeName U s = some (lettersOf s) := by
  by_cases hne : s = []
  · rw [hne]
    exact SanitizeName_nil U
  · have hmem : ∀ c ∈ s, c ≠ '.' ∧ c ≠ '/' := by
      intro c hc
      rcases h c hc with hl | hs
      · exact ⟨hl.ne_dot, hl.ne_slash⟩
      · exact ⟨hs.1, hs.2.1⟩
    have hdot : '.' ∉ s := fun hm => (hmem _ hm).1 rfl
    have hslash : '/' ∉ s := fun hm => (hmem _ hm).2 rfl
    have hlo : ∀ c ∈ s.map (unicode.ToLower U),
        strcase.isDelimiter c = false ∧ strcase.isUpper c = false ∧
          (unicode.IsSpace U c = true → disallowedChars c = true) := by
      intro c hc
      obtain ⟨b, hb, rfl⟩ := List.mem_map.1 hc
      exact lowered_rune U b (h b hb)
    rw [SanitizeName_eq, beforeDot_of_not_mem _ hdot]
    unfold afterSplit
    rw [Base_of_no_slash _ hne hslash]
    unfold strings.ToLower
    have hsq := squeezed_plain_all (strings.TrimSpace U (s.map (unicode.ToLower U)))
      strcase.zeroRune (fun c hc => (hlo c (TrimFunc_subset _ (unicode.IsSpace U) c hc)).1)
    rw [filter_KebabCase U _ (fun c hc => (hlo c hc).2.1), hsq]
    unfold strings.TrimSpace
    rw [filter_TrimFunc _ _ (fun c hc => (hlo c hc).2.2), filter_lowered U s h]
    congr 1
    apply TrimFunc_eq_self
    · intro c hc
      exact lower_isLetter U (mem_lettersOf s c (List.mem_of_mem_head? hc)).1
    · intro c hc
      exact lower_isLetter U (mem_lettersOf s c (List.mem_of_mem_getLast? hc)).1

theorem isDelimiter_cases (sep : Char) (h : strcase.isDelimiter sep = true) :
    sep = '-' ∨ sep = '_' ∨ sep = ' ' ∨ sep = '\t' ∨ sep = '\n' ∨ sep = '\r' := by
  unfold strcase.isDelimiter strcase.isSpace at h
  simp only [Bool.or_eq_true, decide_eq_true_eq] at h
  tauto

theorem delimiter_facts (U : UnicodeTables) (sep : Char) (h : strcase.isDelimiter sep = true) :
    unicode.ToLower U sep = sep ∧ strcase.isUpper sep = false ∧ sep ≠ '.' ∧ sep ≠ '/' := by
  have key : ∀ c : Char, c.toNat ≤ unicode.MaxASCII → unicode.ToLower noTables c = c →
      unicode.ToLower U c = c :=
    fun c hc e => ((unicode_ToLower_ascii U noTables c hc).1).trans e
  rcases isDelimiter_cases sep h with rfl | rfl | rfl | rfl | rfl | rfl
  · exact ⟨key _ (by decide) (by decide), by decide, by decide, by decide⟩
  · exact ⟨key _ (by decide) (by decide), by decide, by decide, by decide⟩
  · exact ⟨key _ (by decide) (by decide), by decide, by decide, by decide⟩
  · exact ⟨key _ (by decide) (by decide), by decide, by decide, by decide⟩
  · exact ⟨key _ (by decide) (by decide), by decide, by decide, by decide⟩
  · exact ⟨key _ (by decide) (by decide), by decide, by decide, by decide⟩

/-- The program on two strings of lowercase ASCII letters and deleted runes,
each with a letter, joined by one delimiter: the letters of the first, a
hyphen, the letters of the second. -/
theorem letters_sep_letters (U : UnicodeTables) (s₁ s₂ : GoString) (sep : Char)
    (hsep : strcase.isDelimiter sep = true)
    (h₁ : ∀ c ∈ s₁, IsLowerLetter c ∨ Stripped U c)
    (h₂ : ∀ c ∈ s₂, IsLowerLetter c ∨ Stripped U c)
    (hu : lettersOf s₁ ≠ []) (hv : lettersOf s₂ ≠ []) :
    SanitizeName U (s₁ ++ [sep] ++ s₂) = some (lettersOf s₁ ++ ['-'] ++ lettersOf s₂) := by
  obtain ⟨hsl, hsu, hsd, hss⟩ := delimiter_facts U sep hsep
  have hmem : ∀ c ∈ s₁ ++ [sep] ++ s₂, c ≠ '.' ∧ c ≠ '/' := by
    intro c hc
    have hcase : ∀ c, IsLowerLetter c ∨ Stripped U c → c ≠ '.' ∧ c ≠ '/' := by
      intro c h
      rcases h with hl | hs
      · exact ⟨hl.ne_dot, hl.ne_slash⟩
      · exact ⟨hs.1, hs.2.1⟩
    simp only [List.mem_append, List.mem_singleton] at hc
    rcases hc with (hc | rfl) | hc
    · exact hcase c (h₁ c hc)
    · exact ⟨hsd, hss⟩
    · exact hcase c (h₂ c hc)
  have hdot : '.' ∉ s₁ ++ [sep] ++ s₂ := fun hm => (hmem _ hm).1 rfl
  have hslash : '/' ∉ s₁ ++ [sep] ++ s₂ := fun hm => (hmem _ hm).2 rfl
  have hne : s₁ ++ [sep] ++ s₂ ≠ [] := by simp
  have hlo : ∀ (s : GoString), (∀ c ∈ s, IsLowerLetter c ∨ Stripped U c) →
      ∀ c ∈ s.map (unicode.ToLower U),
        strcase.isDelimiter c = false ∧ strcase.isUpper c = false ∧
          (unicode.IsSpace U c = true → disallowedChars c = true) := by
    intro s h c hc
    obtain ⟨b, hb, rfl⟩ := List.mem_map.1 hc
    exact lowered_rune U b (h b hb)
  have hex : ∀ (s : GoString), lettersOf s ≠ [] →
      ∃ c ∈ s.map (unicode.ToLower U), unicode.IsSpace U c = false := by
    intro s hs
    obtain ⟨c, hc, hl⟩ := exists_letter s hs
    refine ⟨c, List.mem_map.2 ⟨c, hc, hl.allowed.unicode_ToLower U⟩, hl.allowed.IsSpace U⟩
  have hlow : strings.ToLower U (s₁ ++ [sep] ++ s₂) =
      s₁.map (unicode.ToLower U) ++ ([sep] ++ s₂.map (unicode.ToLower U)) := by
    unfold strings.ToLower
    simp only [List.map_append, List.map_cons, List.map_nil, hsl, List.append_assoc]
  have htrim : strings.TrimSpace U
      (s₁.map (unicode.ToLower U) ++ ([sep] ++ s₂.map (unicode.ToLower U))) =
      (s₁.map (unicode.ToLower U)).dropWhile (unicode.IsSpace U) ++
        sep :: (s₂.map (unicode.ToLower U)).rdropWhile (unicode.IsSpace U) := by
    unfold strings.TrimSpace strings.TrimFunc strings.TrimRightFunc strings.TrimLeftFunc
    rw [dropWhile_append_of_exists _ _ _ (hex s₁ hu), ← List.append_assoc,
      rdropWhile_append_of_exists _ _ _ (hex s₂ hv), List.append_assoc, List.singleton_append]
  have hup : ∀ c ∈ s₁.map (unicode.ToLower U) ++ ([sep] ++ s₂.map (unicode.ToLower U)),
      strcase.isUpper c = false := by
    intro c hc
    simp only [List.mem_append, List.mem_singleton] at hc
    rcases hc with hc | rfl | hc
    · exact (hlo s₁ h₁ c hc).2.1
    · exact hsu
    · exact (hlo s₂ h₂ c hc).2.1
  have hd₁ : ∀ c ∈ (s₁.map (unicode.ToLower U)).dropWhile (unicode.IsSpace U),
      strcase.isDelimiter c = false :=
    fun c hc => (hlo s₁ h₁ c ((List.dropWhile_suffix _).subset hc)).1
  have hd₂ : ∀ c ∈ (s₂.map (unicode.ToLower U)).rdropWhile (unicode.IsSpace U),
      strcase.isDelimiter c = false :=
    fun c hc => (hlo s₂ h₂ c (( List.rdropWhile_prefix _ _).subset hc)).1
  have hf₁ : ReplaceAllStringEmpty disallowedChars
      ((s₁.map (unicode.ToLower U)).dropWhile (unicode.IsSpace U)) = lettersOf s₁ := by
    rw [← filter_lowered U s₁ h₁]
    unfold ReplaceAllStringEmpty
    exact filter_dropWhile _ _ _ (fun c hc hs => by simp [(hlo s₁ h₁ c hc).2.2 hs])
  have hf₂ : ReplaceAllStringEmpty disallowedChars
      ((s₂.map (unicode.ToLower U)).rdropWhile (unicode.IsSpace U)) = lettersOf s₂ := by
    rw [← filter_lowered U s₂ h₂]
    unfold ReplaceAllStringEmpty
    exact filter_rdropWhile _ _ _ (fun c hc hs => by simp [(hlo s₂ h₂ c hc).2.2 hs])
  have hlast : strcase.isDelimiter
      (((s₁.map (unicode.ToLower U)).dropWhile (unicode.IsSpace U)).getLast?.getD
        strcase.zeroRune) = false := by
    cases hg : ((s₁.map (unicode.ToLower U)).dropWhile (unicode.IsSpace U)).getLast? with
    | none => decide
    | some x => exact hd₁ x (List.mem_of_mem_getLast? hg)
  have hne₂ : (s₂.map (unicode.ToLower U)).rdropWhile (unicode.IsSpace U) ≠ [] := by
    intro e
    rw [List.rdropWhile_eq_nil_iff] at e
    obtain ⟨c, hc, hs⟩ := hex s₂ hv
    rw [e c hc] at hs
    exact absurd hs (by decide)
  have hsq : squeezed strcase.zeroRune
      ((s₁.map (unicode.ToLower U)).dropWhile (unicode.IsSpace U) ++
        sep :: (s₂.map (unicode.ToLower U)).rdropWhile (unicode.IsSpace U)) =
      lettersOf s₁ ++ ['-'] ++ lettersOf s₂ := by
    rw [squeezed_plain _ _ _ hd₁, hf₁]
    obtain ⟨n, t, e⟩ := List.exists_cons_of_ne_nil hne₂
    rw [e] at hd₂ hf₂
    rw [e, squeezed_delimiter _ sep n t hsep hlast, squeezed_plain_all _ _ hd₂, hf₂,
      List.append_assoc, List.singleton_append]
  rw [SanitizeName_eq, beforeDot_of_not_mem _ hdot]
  unfold afterSplit
  rw [Base_of_no_slash _ hne hslash, hlow, filter_KebabCase U _ hup, htrim, hsq]
  congr 1
  apply TrimFunc_eq_self
  · intro c hc
    rw [List.append_assoc, List.head?_append_of_ne_nil _ hu] at hc
    exact lower_isLetter U (mem_lettersOf s₁ c (List.mem_of_mem_head? hc)).1
  · intro c hc
    rw [List.getLast?_append_of_ne_nil _ hv] at hc
    exact lower_isLetter U (mem_lettersOf s₂ c (List.mem_of_mem_getLast? hc)).1

/-! ### Digits at the two ends -/

theorem digit_allowed {c : Char} (h : IsDigit c) : Allowed c := Or.inr (Or.inl h)

theorem digit_disallowedEnd (U : UnicodeTables) {c : Char} (h : IsDigit c) :
    isDisallowedStartEndChar U c = true := by
  have hb : 48 ≤ c.toNat ∧ c.toNat ≤ 57 := h
  unfold isDisallowedStartEndChar unicode.IsLetter unicode.MaxASCII
  rw [if_pos (by omega)]
  have e1 : 'z'.toNat = 122 := rfl
  have e4 : 'a'.toNat = 97 := rfl
  have e5 : 'A'.toNat = 65 := rfl
  have e6 : 'Z'.toNat = 90 := rfl
  simp only [Bool.not_eq_true', decide_eq_false_iff_not]
  omega

theorem digit_ne_hyphen {c : Char} (h : IsDigit c) : c ≠ '-' := by
  intro e
  subst e
  revert h
  decide

theorem lower_ne_hyphen {c : Char} (h : IsLowerLetter c) : c ≠ '-' := by
  intro e
  subst e
  revert h
  decide

theorem NoDoubleHyphen_of_no_hyphen (s : GoString) (h : ∀ c ∈ s, c ≠ '-') :
    NoDoubleHyphen s := by
  induction s with
  | nil => simp [NoDoubleHyphen, noDoubleHyphen]
  | cons a t ih =>
    cases t with
    | nil => simp [NoDoubleHyphen, noDoubleHyphen]
    | cons b r =>
      rw [NoDoubleHyphen_cons_cons]
      exact ⟨fun e => h a (List.mem_cons_self _ _) e.1,
        ih (fun c hc => h c (List.mem_cons_of_mem _ hc))⟩

/-- The stages after the split, on a non-empty string of allowed runes without
two consecutive hyphens: the trim of the string. -/
theorem afterSplit_of_no_double (U : UnicodeTables) (s : GoString) (hne : s ≠ [])
    (hall : ∀ c ∈ s, Allowed c) (hch : NoDoubleHyphen s) :
    afterSplit U s = strings.TrimFunc s (isDisallowedStartEndChar U) := by
  cases s with
  | nil => exact absurd rfl hne
  | cons c rest =>
    rw [afterSplit_of_allowed U c rest hall,
      unrolled_allowed rest strcase.zeroRune c hall hch (fun h => absurd h (by decide)),
      ReplaceAllStringEmpty_allowed _ hall]

theorem TrimFunc_digits_word (U : UnicodeTables) (w d₁ d₂ : GoString) (hw : w ≠ [])
    (hwl : ∀ c ∈ w, IsLowerLetter c) (h₁ : ∀ c ∈ d₁, IsDigit c) (h₂ : ∀ c ∈ d₂, IsDigit c) :
    strings.TrimFunc (d₁ ++ w ++ d₂) (isDisallowedStartEndChar U) = w := by
  unfold strings.TrimFunc strings.TrimRightFunc strings.TrimLeftFunc
  have hl : (d₁ ++ w ++ d₂).dropWhile (isDisallowedStartEndChar U) = w ++ d₂ := by
    rw [List.append_assoc, List.dropWhile_append_of_pos (fun c hc => digit_disallowedEnd U (h₁ c hc))]
    obtain ⟨a, w', rfl⟩ := List.exists_cons_of_ne_nil hw
    rw [List.cons_append, List.dropWhile_cons_of_neg]
    simpa using lower_isLetter U (hwl a (List.mem_cons_self _ _))
  rw [hl, rdropWhile_append_left _ w hw
    (lower_isLetter U (hwl _ (List.getLast_mem hw))),
    List.rdropWhile_eq_nil_iff.2 (fun c hc => digit_disallowedEnd U (h₂ c hc)), List.append_nil]

theorem afterSplit_nil (U : UnicodeTables) : afterSplit U [] = [] := by
  have h := SanitizeName_nil U
  rw [SanitizeName_eq, Option.some.injEq] at h
  exact h

/-! ### ASCII uppercase in the input -/

theorem lowerASCII_eq_iff (c t : Char) (ht : t.toNat < 65) : lowerASCII c = t ↔ c = t := by
  unfold lowerASCII
  split_ifs with h
  · have hb : 65 ≤ c.toNat ∧ c.toNat ≤ 90 := h
    constructor
    · intro e
      have := congrArg Char.toNat e
      rw [toNat_ofNat_small _ (by omega)] at this
      omega
    · intro e
      rw [e] at hb
      omega
  · exact Iff.rfl

theorem unicode_ToLower_lowerASCII (U : UnicodeTables) (c : Char) :
    unicode.ToLower U (lowerASCII c) = unicode.ToLower U c := by
  unfold lowerASCII
  split_ifs with h
  · have hb : 65 ≤ c.toNat ∧ c.toNat ≤ 90 := h
    have e5 : 'A'.toNat = 65 := rfl
    have e6 : 'Z'.toNat = 90 := rfl
    have e4 : 'a'.toNat = 97 := rfl
    have hn := toNat_ofNat_small (c.toNat + 32) (by omega)
    unfold unicode.ToLower unicode.MaxASCII
    rw [hn, if_pos (by omega), if_neg (by omega), if_pos (by omega), if_pos (by omega)]
    rfl
  · rfl

theorem beforeDot_map_lowerASCII (s : GoString) :
    beforeDot (s.map lowerASCII) = (beforeDot s).map lowerASCII := by
  unfold beforeDot
  rw [List.takeWhile_map]
  congr 2
  funext c
  simp only [Function.comp_apply, ne_eq, decide_not, lowerASCII_eq_iff c '.' (by decide)]

theorem LastIndex_map_lowerASCII (s : GoString) :
    strings.LastIndex (s.map lowerASCII) '/' = strings.LastIndex s '/' := by
  induction s with
  | nil => rfl
  | cons c cs ih =>
    rw [List.map_cons]
    unfold strings.LastIndex
    simp only [ih, lowerASCII_eq_iff c '/' (by decide)]

theorem rdropWhile_map_lowerASCII (s : GoString) :
    (s.map lowerASCII).rdropWhile (fun c => decide (c = '/')) =
      (s.rdropWhile (fun c => decide (c = '/'))).map lowerASCII := by
  unfold List.rdropWhile
  rw [← List.map_reverse, List.dropWhile_map, List.map_reverse]
  congr 3
  funext c
  simp only [Function.comp_apply, lowerASCII_eq_iff c '/' (by decide)]

theorem Base_map_lowerASCII (x : GoString) :
    path.Base (x.map lowerASCII) = (path.Base x).map lowerASCII := by
  unfold path.Base
  simp only [List.map_eq_nil_iff, rdropWhile_map_lowerASCII, LastIndex_map_lowerASCII,
    ← List.map_drop]
  split_ifs <;> first | rfl | simp_all

theorem ToLower_map_lowerASCII (U : UnicodeTables) (x : GoString) :
    strings.ToLower U (x.map lowerASCII) = strings.ToLower U x := by
  unfold strings.ToLower
  rw [List.map_map]
  exact List.map_congr_left (fun c _ => unicode_ToLower_lowerASCII U c)

/-! ### A trailing slash -/

theorem beforeDot_append_of_mem (s t : GoString) (h : '.' ∈ s) :
    beforeDot (s ++ t) = beforeDot s := by
  induction s with
  | nil => simp at h
  | cons c cs ih =>
    unfold beforeDot at ih ⊢
    by_cases hc : c = '.'
    · subst hc
      rw [List.cons_append, List.takeWhile_cons_of_neg (by decide),
        List.takeWhile_cons_of_neg (by decide)]
    · have hm : '.' ∈ cs := by
        rcases List.mem_cons.1 h with e | e
        · exact absurd e.symm hc
        · exact e
      rw [List.cons_append, List.takeWhile_cons_of_pos (by simpa using hc),
        List.takeWhile_cons_of_pos (by simpa using hc), ih hm]

theorem Base_append_slash (s : GoString) (hne : s ≠ []) :
    path.Base (s ++ ['/']) = path.Base s := by
  unfold path.Base
  have h1 : s ++ ['/'] ≠ [] := by simp
  simp only [h1, hne, if_false]
  rw [List.rdropWhile_concat_pos _ _ _ (by decide)]

theorem afterSplit_slash (U : UnicodeTables) : afterSplit U ['/'] = [] :=
  (afterSplit_ascii U noTables _ (by decide)).trans (by decide)

/-! ### The length of the output -/

theorem emitted_length_le (d : Char) (a : Char → Char) (p c n : Char)
    (hc : strcase.isUpper c = false) : (strcase.emitted d a p c n).length ≤ 1 := by
  unfold strcase.emitted
  rw [hc]
  simp only [Bool.false_eq_true, if_false]
  split_ifs <;> simp

theorem closing_length (d : Char) (a : Char → Char) (p c : Char)
    (hc : strcase.isUpper c = false) : (strcase.closing d a p c).length = 1 := by
  unfold strcase.closing
  rw [hc]
  simp

theorem unrolled_length_le (d : Char) (a : Char → Char) (rest : List Char) :
    ∀ (p c : Char), (∀ x ∈ c :: rest, strcase.isUpper x = false) →
      (strcase.unrolled d a p c rest).length ≤ rest.length + 1 := by
  induction rest with
  | nil =>
    intro p c hup
    rw [strcase.unrolled, closing_length d a p c (hup c (List.mem_cons_self _ _))]
    simp
  | cons n r ih =>
    intro p c hup
    have h1 := emitted_length_le d a p c n (hup c (List.mem_cons_self _ _))
    have h2 := ih c n (fun x hx => hup x (List.mem_cons_of_mem _ hx))
    rw [strcase.unrolled, List.length_append, List.length_cons]
    omega

theorem KebabCase_length_le (U : UnicodeTables) (s : GoString)
    (hup : ∀ x ∈ s, strcase.isUpper x = false) :
    (strcase.KebabCase U s).length ≤ s.length := by
  rw [strcase.KebabCase_eq]
  have ht : (strings.TrimSpace U s).length ≤ s.length := TrimFunc_length_le _ _
  have hs : ∀ x ∈ strings.TrimSpace U s, x ∈ s := TrimFunc_subset _ _
  cases h : strings.TrimSpace U s with
  | nil => simp
  | cons c rest =>
    rw [h] at ht hs
    show (strcase.unrolled '-' strcase.toLower strcase.zeroRune c rest).length ≤ s.length
    have := unrolled_length_le '-' strcase.toLower rest strcase.zeroRune c
      (fun x hx => hup x (hs x hx))
    simp only [List.length_cons] at ht
    omega

theorem Base_length_le (x : GoString) (hne : x ≠ []) : (path.Base x).length ≤ x.length := by
  have hpos : 1 ≤ x.length := List.length_pos.2 hne
  have h1 : (x.rdropWhile (fun c => decide (c = '/'))).length ≤ x.length :=
    ( List.rdropWhile_prefix _ _).length_le
  unfold path.Base
  simp only [hne, if_false]
  split_ifs
  · simpa using hpos
  · exact (List.length_drop _ _ ▸ Nat.sub_le _ _).trans h1
  · simpa using hpos
  · exact h1

theorem afterSplit_length_le (U : UnicodeTables) (hU : LowerNeverUpper U) (x : GoString) :
    (afterSplit U x).length ≤ x.length := by
  by_cases hne : x = []
  · rw [hne, afterSplit_nil]
  · have h1 := Base_length_le x hne
    have h2 : (strings.ToLower U (path.Base x)).length = (path.Base x).length := by
      unfold strings.ToLower
      exact List.length_map _ _
    have h3 := KebabCase_length_le U (strings.ToLower U (path.Base x)) (by
      intro c hc
      unfold strings.ToLower at hc
      obtain ⟨b, _, rfl⟩ := List.mem_map.1 hc
      exact hU b)
    have h4 := ReplaceAllStringEmpty_length_le disallowedChars
      (strcase.KebabCase U (strings.ToLower U (path.Base x)))
    have h5 := TrimFunc_length_le
      (ReplaceAllStringEmpty disallowedChars
        (strcase.KebabCase U (strings.ToLower U (path.Base x))))
      (isDisallowedStartEndChar U)
    unfold afterSplit
    omega

theorem noTables_LowerNeverUpper : LowerNeverUpper noTables := by
  intro r
  unfold unicode.ToLower unicode.MaxASCII
  split_ifs with h1 h2
  · have hb : 65 ≤ r.toNat ∧ r.toNat ≤ 90 := h2
    have hn : (Char.ofNat (r.toNat + ('a'.toNat - 'A'.toNat))).toNat = r.toNat + 32 :=
      toNat_ofNat_small (r.toNat + 32) (by omega)
    unfold strcase.isUpper
    rw [hn]
    have e6 : 'Z'.toNat = 90 := rfl
    simp only [decide_eq_false_iff_not]
    omega
  · unfold strcase.isUpper
    simp only [decide_eq_false_iff_not]
    exact h2
  · have hb : ¬ r.toNat ≤ 127 := h1
    have e6 : 'Z'.toNat = 90 := rfl
    unfold strcase.isUpper
    simp only [decide_eq_false_iff_not]
    show ¬ ('A'.toNat ≤ r.toNat ∧ r.toNat ≤ 'Z'.toNat)
    omega

/-! ### The claims -/

/-- C1 (output alphabet): for every input the program returns a string, and
every rune of it is a lowercase ASCII letter, an ASCII digit or a hyphen. -/
theorem SanitizeName_output_alphabet (U : UnicodeTables) (s : GoString) :
    ∃ r, SanitizeName U s = some r ∧
      ∀ c ∈ r, ('a' ≤ c ∧ c ≤ 'z') ∨ ('0' ≤ c ∧ c ≤ '9') ∨ c = '-' :=
  ⟨_, SanitizeName_eq U s, afterSplit_allowed U _⟩

/-- C2 (no leading or trailing non-letter): for every input the program returns
a string which, when it is not empty, begins with a lowercase ASCII letter and
ends with a lowercase ASCII letter. -/
theorem SanitizeName_first_last_letter (U : UnicodeTables) (s : GoString) :
    ∃ r, SanitizeName U s = some r ∧
      ∀ hne : r ≠ [],
        ('a' ≤ r.head hne ∧ r.head hne ≤ 'z') ∧ ('a' ≤ r.getLast hne ∧ r.getLast hne ≤ 'z') :=
  ⟨_, SanitizeName_eq U s, afterSplit_ends U _⟩

/-- C3, as the specification states it, fails.  The strings "a1" and "a--b"
match `^[a-z][a-z0-9-]*[a-z0-9]$`; whatever the tables, the program returns "a"
for the first, because the trim removes a trailing digit, and "a-b" for the
second, because `KebabCase` writes one hyphen for a run of hyphens. -/
theorem SanitizeName_normalized_not_fixed :
    (MatchesShape IsLowerLetterOrDigit "a1".data ∧
      ∀ U, SanitizeName U "a1".data = some "a".data ∧
        SanitizeName U "a1".data ≠ some "a1".data) ∧
    (MatchesShape IsLowerLetterOrDigit "a--b".data ∧
      ∀ U, SanitizeName U "a--b".data = some "a-b".data ∧
        SanitizeName U "a--b".data ≠ some "a--b".data) := by
  refine ⟨⟨⟨'a', [], '1', rfl, by decide, by simp, Or.inr (by decide)⟩, fun U => ?_⟩,
    ⟨⟨'a', ['-', '-'], 'b', rfl, by decide, by decide, Or.inl (by decide)⟩, fun U => ?_⟩⟩
  · have h : SanitizeName U "a1".data = some "a".data :=
      (SanitizeName_ascii U noTables _ (by decide)).trans (by decide)
    exact ⟨h, by rw [h]; decide⟩
  · have h : SanitizeName U "a--b".data = some "a-b".data :=
      (SanitizeName_ascii U noTables _ (by decide)).trans (by decide)
    exact ⟨h, by rw [h]; decide⟩

/-- C3, amended: a string that matches `^[a-z][a-z0-9-]*[a-z]$` and has no two
consecutive hyphens, or that is a single lowercase ASCII letter, is returned
unchanged. -/
theorem SanitizeName_normalized_fixed (U : UnicodeTables) (s : GoString)
    (h : (MatchesShape IsLowerLetter s ∧ NoDoubleHyphen s) ∨
      (∃ c, s = [c] ∧ IsLowerLetter c)) :
    SanitizeName U s = some s :=
  shape_fixed U s h

/-- The amended C3 at "my-service2go", which is returned unchanged. -/
theorem SanitizeName_normalized_fixed_witness :
    ((MatchesShape IsLowerLetter "my-service2go".data ∧ NoDoubleHyphen "my-service2go".data) ∨
      (∃ c, "my-service2go".data = [c] ∧ IsLowerLetter c)) ∧
    SanitizeName noTables "my-service2go".data = some "my-service2go".data :=
  have h : (MatchesShape IsLowerLetter "my-service2go".data ∧
      NoDoubleHyphen "my-service2go".data) ∨
      (∃ c, "my-service2go".data = [c] ∧ IsLowerLetter c) :=
    Or.inl ⟨⟨'m', "y-service2g".data, 'o', by decide, by decide, by decide, by decide⟩,
      by decide⟩
  ⟨h, SanitizeName_normalized_fixed noTables _ h⟩

/-- C4 at its input: whatever the tables, the program returns "myservice" for
"MyService", without a hyphen.  The string is lowercased before `KebabCase`
reads it, so no case transition is left for `KebabCase` to find. -/
theorem SanitizeName_MyService (U : UnicodeTables) :
    SanitizeName U "MyService".data = some "myservice".data :=
  (SanitizeName_ascii U noTables _ (by decide)).trans (by decide)

/-- C5 (dot truncation): when `a` has no dot, the program returns for
`a ++ "." ++ b` what it returns for `a`, whatever `b` is. -/
theorem SanitizeName_dot_truncation (U : UnicodeTables) (a b : GoString) (ha : '.' ∉ a) :
    SanitizeName U (a ++ ['.'] ++ b) = SanitizeName U a := by
  rw [SanitizeName_eq, SanitizeName_eq, List.append_assoc, List.singleton_append,
    beforeDot_append_dot a b ha, beforeDot_of_not_mem a ha]

/-- C5 at "app.tar.gz": the result is that of "app", the string "app". -/
theorem SanitizeName_dot_truncation_witness :
    SanitizeName noTables "app.tar.gz".data = SanitizeName noTables "app".data ∧
      SanitizeName noTables "app".data = some "app".data :=
  ⟨SanitizeName_dot_truncation noTables "app".data "tar.gz".data (by decide), by decide⟩

/-- C6 (path basename): when `d` has no dot and `b` is not empty, has no slash
and does not begin with a dot, the program returns for `d ++ "/" ++ b` what it
returns for `b`. -/
theorem SanitizeName_basename (U : UnicodeTables) (d b : GoString) (hd : '.' ∉ d)
    (hb : b ≠ []) (hs : '/' ∉ b) (hdot : b.head? ≠ some '.') :
    SanitizeName U (d ++ ['/'] ++ b) = SanitizeName U b := by
  have hne := beforeDot_ne_nil b hb hdot
  have hs' : '/' ∉ beforeDot b := fun h => hs (beforeDot_subset b _ h)
  rw [SanitizeName_eq, SanitizeName_eq, List.append_assoc, List.singleton_append,
    beforeDot_dir_slash d b hd]
  unfold afterSplit
  rw [Base_dir_slash d _ hne hs', Base_of_no_slash _ hne hs']

/-- C6 at "/usr/local/My-App": the result is that of "My-App", the string
"my-app". -/
theorem SanitizeName_basename_witness :
    SanitizeName noTables "/usr/local/My-App".data = SanitizeName noTables "My-App".data ∧
      SanitizeName noTables "My-App".data = some "my-app".data :=
  ⟨SanitizeName_basename noTables "/usr/local".data "My-App".data (by decide) (by decide)
    (by decide) (by decide), by decide⟩

/-- C7 (totality): splitting any string on the dot gives at least one segment,
so the index 0 is in range, and the program returns a string for every input. -/
theorem SanitizeName_total (U : UnicodeTables) (s : GoString) :
    0 < (strings.Split s '.').length ∧ (strings.Split s '.')[0]? ≠ none ∧
      ∃ r, SanitizeName U s = some r := by
  refine ⟨List.length_pos.2 (Split_ne_nil s '.'), ?_, _, SanitizeName_eq U s⟩
  rw [Split_head]
  simp

/-- C8 (full deletion): the program returns the empty string for every input
without a letter, for tables whose case mapping sends no rune that is not a
letter to a letter. -/
theorem SanitizeName_no_letter (U : UnicodeTables) (hU : LowerKeepsNonLetters U)
    (s : GoString) (hs : ∀ c ∈ s, unicode.IsLetter U c = false) :
    SanitizeName U s = some [] := by
  rw [SanitizeName_eq]
  congr 1
  unfold afterSplit
  apply TrimFunc_eq_nil
  intro c hc
  unfold ReplaceAllStringEmpty at hc
  have hk := (List.mem_filter.1 hc).1
  unfold isDisallowedStartEndChar
  suffices h : unicode.IsLetter U c = false by simp [h]
  rcases mem_KebabCase U _ c hk with rfl | ⟨a, ha, rfl⟩
  · exact (unicode_IsLetter_ascii U noTables '-' (by decide)).trans (by decide)
  · apply IsLetter_toLower
    unfold strings.ToLower at ha
    obtain ⟨b, hb, rfl⟩ := List.mem_map.1 ha
    apply hU
    rcases Base_mem _ b hb with h | rfl | rfl
    · exact hs b (beforeDot_subset s b h)
    · exact (unicode_IsLetter_ascii U noTables '.' (by decide)).trans (by decide)
    · exact (unicode_IsLetter_ascii U noTables '/' (by decide)).trans (by decide)

/-- C8 at the empty string, "...", "123" and "123456". -/
theorem SanitizeName_no_letter_witness :
    SanitizeName noTables "".data = some "".data ∧
      SanitizeName noTables "...".data = some "".data ∧
      SanitizeName noTables "123".data = some "".data ∧
      SanitizeName noTables "123456".data = some "".data :=
  ⟨SanitizeName_no_letter noTables noTables_LowerKeepsNonLetters "".data (by decide),
    SanitizeName_no_letter noTables noTables_LowerKeepsNonLetters "...".data (by decide),
    SanitizeName_no_letter noTables noTables_LowerKeepsNonLetters "123".data (by decide),
    SanitizeName_no_letter noTables noTables_LowerKeepsNonLetters "123456".data (by decide)⟩

/-- C9, as the specification states it, fails in its clause that the characters
outside a-z, 0-9 and '-' are deleted without replacement.  Whatever the tables:
a tab is outside the class, and "foo\tbar" gives "foo-bar" where "foobar" gives
"foobar"; 'A' is outside the class, and "fooAbar" gives "fooabar"; '!' is
outside the class and is deleted, but "foo_!_bar" gives "foo--bar" where
"foo__bar" gives "foo-bar". -/
theorem SanitizeName_deletion_leaves_trace :
    (disallowedChars '\t' = true ∧
      ∀ U, SanitizeName U "foo\tbar".data = some "foo-bar".data ∧
        SanitizeName U "foobar".data = some "foobar".data) ∧
    (disallowedChars 'A' = true ∧
      ∀ U, SanitizeName U "fooAbar".data = some "fooabar".data) ∧
    (disallowedChars '!' = true ∧
      ∀ U, SanitizeName U "foo_!_bar".data = some "foo--bar".data ∧
        SanitizeName U "foo__bar".data = some "foo-bar".data) :=
  ⟨⟨by decide, fun U =>
      ⟨(SanitizeName_ascii U noTables _ (by decide)).trans (by decide),
        (SanitizeName_ascii U noTables _ (by decide)).trans (by decide)⟩⟩,
    ⟨by decide, fun U => (SanitizeName_ascii U noTables _ (by decide)).trans (by decide)⟩,
    ⟨by decide, fun U =>
      ⟨(SanitizeName_ascii U noTables _ (by decide)).trans (by decide),
        (SanitizeName_ascii U noTables _ (by decide)).trans (by decide)⟩⟩⟩

/-- C9, amended (word boundaries and deleted runes): let `u` and `v` be
non-empty words of lowercase ASCII letters, and `s₁` and `s₂` be `u` and `v`
with deleted runes inserted anywhere, a deleted rune being one that `Stripped`
accepts.  The program returns `u ++ "-" ++ v` for `s₁ ++ "_" ++ s₂`, for
`s₁ ++ " " ++ s₂` and for `s₁` and `s₂` joined by any other delimiter, and it
returns `u ++ v` for `s₁ ++ s₂`: a delimiter between the two words becomes one
hyphen, and the deleted runes leave nothing in their place. -/
theorem SanitizeName_words_and_deleted_runes (U : UnicodeTables) (u v s₁ s₂ : GoString)
    (hu : u ≠ []) (hv : v ≠ [])
    (h₁ : ∀ c ∈ s₁, ('a' ≤ c ∧ c ≤ 'z') ∨ Stripped U c)
    (h₂ : ∀ c ∈ s₂, ('a' ≤ c ∧ c ≤ 'z') ∨ Stripped U c)
    (e₁ : lettersOf s₁ = u) (e₂ : lettersOf s₂ = v) :
    SanitizeName U (s₁ ++ ['_'] ++ s₂) = some (u ++ ['-'] ++ v) ∧
      SanitizeName U (s₁ ++ [' '] ++ s₂) = some (u ++ ['-'] ++ v) ∧
      (∀ sep, strcase.isDelimiter sep = true →
        SanitizeName U (s₁ ++ [sep] ++ s₂) = some (u ++ ['-'] ++ v)) ∧
      SanitizeName U (s₁ ++ s₂) = some (u ++ v) := by
  subst e₁ e₂
  refine ⟨letters_sep_letters U s₁ s₂ '_' (by decide) h₁ h₂ hu hv,
    letters_sep_letters U s₁ s₂ ' ' (by decide) h₁ h₂ hu hv,
    fun sep hsep => letters_sep_letters U s₁ s₂ sep hsep h₁ h₂ hu hv, ?_⟩
  rw [← lettersOf_append]
  apply letters_among_stripped
  intro c hc
  rcases List.mem_append.1 hc with hc | hc
  · exact h₁ c hc
  · exact h₂ c hc

/-- The amended C9 at the words "foo" and "bar": without deleted runes, with
the deleted runes "!@#" after "bar", and with deleted runes at other places. -/
theorem SanitizeName_words_and_deleted_runes_witness :
    (SanitizeName noTables "foo_bar".data = some "foo-bar".data ∧
      SanitizeName noTables "foo bar".data = some "foo-bar".data) ∧
    (SanitizeName noTables "foo_bar!@#".data = some "foo-bar".data ∧
      SanitizeName noTables "foo!@#bar".data = some "foobar".data) ∧
    (SanitizeName noTables "#f!oo@_!ba@r".data = some "foo-bar".data ∧
      SanitizeName noTables "#f!oo@\t!ba@r".data = some "foo-bar".data) :=
  have a := SanitizeName_words_and_deleted_runes noTables "foo".data "bar".data
    "foo".data "bar".data (by decide) (by decide) (by decide) (by decide) (by decide)
    (by decide)
  have b := SanitizeName_words_and_deleted_runes noTables "foo".data "bar".data
    "foo".data "bar!@#".data (by decide) (by decide) (by decide) (by decide) (by decide)
    (by decide)
  have c := SanitizeName_words_and_deleted_runes noTables "foo".data "bar".data
    "foo!@#".data "bar".data (by decide) (by decide) (by decide) (by decide) (by decide)
    (by decide)
  have d := SanitizeName_words_and_deleted_runes noTables "foo".data "bar".data
    "#f!oo@".data "!ba@r".data (by decide) (by decide) (by decide) (by decide) (by decide)
    (by decide)
  ⟨⟨a.1, a.2.1⟩, ⟨b.1, c.2.2.2⟩, ⟨d.1, d.2.2.1 '\t' (by decide)⟩⟩

/-- C10 (the fixed points): the program returns its input unchanged exactly
when the input is empty, or is made of lowercase ASCII letters, digits and
hyphens only, begins and ends with a lowercase ASCII letter and has no two
consecutive hyphens. -/
theorem SanitizeName_fixed_iff (U : UnicodeTables) (s : GoString) :
    SanitizeName U s = some s ↔
      s = [] ∨
        ((∀ c ∈ s, ('a' ≤ c ∧ c ≤ 'z') ∨ ('0' ≤ c ∧ c ≤ '9') ∨ c = '-') ∧
          (∃ c, s.head? = some c ∧ 'a' ≤ c ∧ c ≤ 'z') ∧
          (∃ c, s.getLast? = some c ∧ 'a' ≤ c ∧ c ≤ 'z') ∧
          NoDoubleHyphen s) := by
  constructor
  · intro h
    by_cases hne : s = []
    · exact Or.inl hne
    · obtain ⟨h1, h2, h3, h4⟩ := compliant_of_fixed U s hne h
      refine Or.inr ⟨h1, ?_, ?_, h4⟩
      · exact ⟨s.head hne, List.head?_eq_head hne, h2 _ (List.head?_eq_head hne)⟩
      · exact ⟨s.getLast hne, List.getLast?_eq_getLast _ hne,
          h3 _ (List.getLast?_eq_getLast _ hne)⟩
  · rintro (rfl | ⟨h1, ⟨a, ha, ha'⟩, ⟨b, hb, hb'⟩, h4⟩)
    · exact SanitizeName_nil U
    · have hne : s ≠ [] := by
        intro e
        rw [e] at ha
        simp at ha
      apply fixed_of_compliant U s hne h1 _ _ h4
      · intro c hc
        rw [ha, Option.some.injEq] at hc
        exact hc ▸ ha'
      · intro c hc
        rw [hb, Option.some.injEq] at hc
        exact hc ▸ hb'

/-- C10 at "my-service", which is returned unchanged, and at "my--service",
which is not. -/
theorem SanitizeName_fixed_iff_witness :
    SanitizeName noTables "my-service".data = some "my-service".data ∧
      SanitizeName noTables "my--service".data ≠ some "my--service".data :=
  ⟨(SanitizeName_fixed_iff noTables "my-service".data).2
      (Or.inr ⟨by decide, ⟨'m', rfl, by decide⟩, ⟨'e', rfl, by decide⟩, by decide⟩),
    fun h => by
      rcases (SanitizeName_fixed_iff noTables "my--service".data).1 h with h | ⟨_, _, _, h⟩
      · exact absurd h (by decide)
      · exact absurd h (by decide)⟩

/-- C11 (no idempotence): whatever the tables, the program returns "a--b" for
"a-!-b" and "a-b" for "a--b", so there is an input on which a second run
changes the result of the first. -/
theorem SanitizeName_not_idempotent (U : UnicodeTables) :
    SanitizeName U "a-!-b".data = some "a--b".data ∧
      SanitizeName U "a--b".data = some "a-b".data ∧
      ∃ s r, SanitizeName U s = some r ∧ SanitizeName U r ≠ some r := by
  have h1 : SanitizeName U "a-!-b".data = some "a--b".data :=
    (SanitizeName_ascii U noTables _ (by decide)).trans (by decide)
  have h2 : SanitizeName U "a--b".data = some "a-b".data :=
    (SanitizeName_ascii U noTables _ (by decide)).trans (by decide)
  exact ⟨h1, h2, _, _, h1, by rw [h2]; decide⟩

/-- C12 (digits at the ends are trimmed): for a non-empty word `w` of lowercase
ASCII letters and strings `d₁` and `d₂` of ASCII digits, the program returns
`w` for `d₁ ++ w ++ d₂`. -/
theorem SanitizeName_digits_trimmed (U : UnicodeTables) (w d₁ d₂ : GoString) (hw : w ≠ [])
    (hwl : ∀ c ∈ w, 'a' ≤ c ∧ c ≤ 'z') (h₁ : ∀ c ∈ d₁, '0' ≤ c ∧ c ≤ '9')
    (h₂ : ∀ c ∈ d₂, '0' ≤ c ∧ c ≤ '9') :
    SanitizeName U (d₁ ++ w ++ d₂) = some w := by
  have hall : ∀ c ∈ d₁ ++ w ++ d₂, Allowed c := by
    intro c hc
    simp only [List.mem_append] at hc
    rcases hc with (hc | hc) | hc
    · exact digit_allowed (h₁ c hc)
    · exact IsLowerLetter.allowed (hwl c hc)
    · exact digit_allowed (h₂ c hc)
  have hnh : ∀ c ∈ d₁ ++ w ++ d₂, c ≠ '-' := by
    intro c hc
    simp only [List.mem_append] at hc
    rcases hc with (hc | hc) | hc
    · exact digit_ne_hyphen (h₁ c hc)
    · exact lower_ne_hyphen (hwl c hc)
    · exact digit_ne_hyphen (h₂ c hc)
  have hne : d₁ ++ w ++ d₂ ≠ [] := by simp [hw]
  have hdot : '.' ∉ d₁ ++ w ++ d₂ := fun hm => not_allowed_dot (hall _ hm)
  rw [SanitizeName_eq, beforeDot_of_not_mem _ hdot,
    afterSplit_of_no_double U _ hne hall (NoDoubleHyphen_of_no_hyphen _ hnh),
    TrimFunc_digits_word U w d₁ d₂ hw hwl h₁ h₂]

/-- C12 at "service1" and at "42service1": both give "service". -/
theorem SanitizeName_digits_trimmed_witness :
    SanitizeName noTables "service1".data = some "service".data ∧
      SanitizeName noTables "42service1".data = some "service".data :=
  ⟨SanitizeName_digits_trimmed noTables "service".data "".data "1".data
      (by decide) (by decide) (by decide) (by decide),
    SanitizeName_digits_trimmed noTables "service".data "42".data "1".data
      (by decide) (by decide) (by decide) (by decide)⟩

/-- C13 (a leading dot): the program returns the empty string for every input
that begins with a dot, because the segment before the first dot is empty. -/
theorem SanitizeName_leading_dot (U : UnicodeTables) (t : GoString) :
    SanitizeName U (['.'] ++ t) = some [] ∧
      (strings.Split (['.'] ++ t) '.')[0]? = some [] := by
  have hb : beforeDot (['.'] ++ t) = [] := by
    unfold beforeDot
    rw [List.singleton_append, List.takeWhile_cons_of_neg (by decide)]
  constructor
  · rw [SanitizeName_eq, hb, afterSplit_nil]
  · rw [Split_head]
    exact congrArg some hb

/-- C13 at "./foo.yaml", "../dir/app" and ".hidden". -/
theorem SanitizeName_leading_dot_witness :
    SanitizeName noTables "./foo.yaml".data = some "".data ∧
      SanitizeName noTables "../dir/app".data = some "".data ∧
      SanitizeName noTables ".hidden".data = some "".data :=
  ⟨(SanitizeName_leading_dot noTables "/foo.yaml".data).1,
    (SanitizeName_leading_dot noTables "./dir/app".data).1,
    (SanitizeName_leading_dot noTables "hidden".data).1⟩

/-- C14 (case-insensitivity): the program returns for a string what it returns
for the string with every ASCII uppercase letter replaced by its lowercase
form. -/
theorem SanitizeName_case_insensitive (U : UnicodeTables) (s : GoString) :
    SanitizeName U s = SanitizeName U (s.map lowerASCII) := by
  rw [SanitizeName_eq, SanitizeName_eq, beforeDot_map_lowerASCII]
  unfold afterSplit
  rw [Base_map_lowerASCII, ToLower_map_lowerASCII]

/-- C15 (a trailing slash): the program returns for `s ++ "/"` what it returns
for `s`. -/
theorem SanitizeName_trailing_slash (U : UnicodeTables) (s : GoString) :
    SanitizeName U (s ++ ['/']) = SanitizeName U s := by
  rw [SanitizeName_eq, SanitizeName_eq]
  by_cases hd : '.' ∈ s
  · rw [beforeDot_append_of_mem s _ hd]
  · have h1 : '.' ∉ s ++ ['/'] := by
      intro hm
      rcases List.mem_append.1 hm with hm | hm
      · exact hd hm
      · simp at hm
    rw [beforeDot_of_not_mem _ h1, beforeDot_of_not_mem _ hd]
    by_cases hne : s = []
    · rw [hne, List.nil_append, afterSplit_slash, afterSplit_nil]
    · unfold afterSplit
      rw [Base_append_slash s hne]

/-- C15 at "foo/" and "usr/local//": the results are those of "foo" and
"usr/local", the strings "foo" and "local". -/
theorem SanitizeName_trailing_slash_witness :
    SanitizeName noTables "foo/".data = some "foo".data ∧
      SanitizeName noTables "usr/local//".data = some "local".data :=
  ⟨(SanitizeName_trailing_slash noTables "foo".data).trans (by decide),
    ((SanitizeName_trailing_slash noTables "usr/local/".data).trans
      (SanitizeName_trailing_slash noTables "usr/local".data)).trans (by decide)⟩

/-- C16 (the output is not longer than the input): for tables whose case mapping
gives no ASCII uppercase letter, the program returns a string that has at most
as many runes as its input. -/
theorem SanitizeName_length_le (U : UnicodeTables) (hU : LowerNeverUpper U) (s : GoString) :
    ∃ r, SanitizeName U s = some r ∧ r.length ≤ s.length := by
  refine ⟨_, SanitizeName_eq U s, (afterSplit_length_le U hU _).trans ?_⟩
  unfold beforeDot
  exact ( List.takeWhile_prefix _).length_le

/-- C16 at the empty string, whose basename is "." and whose result is empty,
and at "foo_bar", whose result "foo-bar" has the length of the input. -/
theorem SanitizeName_length_le_witness :
    (∃ r, SanitizeName noTables "".data = some r ∧ r.length ≤ "".data.length) ∧
      (∃ r, SanitizeName noTables "foo_bar".data = some r ∧ r.length ≤ "foo_bar".data.length) ∧
      path.Base "".data = ".".data ∧
      SanitizeName noTables "foo_bar".data = some "foo-bar".data :=
  ⟨SanitizeName_length_le noTables noTables_LowerNeverUpper "".data,
    SanitizeName_length_le noTables noTables_LowerNeverUpper "foo_bar".data,
    by decide, by decide⟩

end Kubernetes
